import Mathlib

/-! Study planner: priority-guided topological sort and day packing.

A shallow embedding of `study_planner.c`.

Modelling conventions.

* C `int` values (durations, priorities, in-degrees, the daily limit) are
  integers (`Int`).  The sums `day_time_used + dur` formed by `print_schedule`
  are 32-bit sums: they are reduced to the range of `int` by `wrap32`
  (two's complement), as the compiled program does.  The in-degree counters
  move by one per recorded edge and are kept as plain integers; `main` reads
  the number of edges into an `int`, so they stay inside the range.
* Topic ids are natural numbers; `main` only hands ids in `0 .. total_topics-1`
  to the graph.
* The global arrays `Topics` and `in_degree` are total functions on indices.
* The arrays `ready` and `schedule_order` are represented by their live
  prefixes `ready[0..ready_count)` and `schedule_order[0..order_count)`, so
  `ready_count` and `order_count` are the lengths of these lists.
* The linked list `Topics[u].dependencies` is the list of the `topic_id`
  fields met when walking from the head.
-/

namespace StudyPlanner

/-! ## Data model -/

/-- The record `struct Topic`; `dependencies` lists the dependents of the topic
in traversal order from the head of the linked list. -/
structure Topic where
  id : Nat
  name : String
  duration : Int
  priority : Int
  dependencies : List Nat

/-- The global variables of the program. -/
structure Planner where
  Topics : Nat → Topic
  in_degree : Nat → Int
  schedule_order : List Nat
  total_topics : Nat
  ready : List Nat

/-- The constant `MAX_TOPICS`. -/
def MAX_TOPICS : Nat := 100

/-- The global `order_count`. -/
def Planner.order_count (s : Planner) : Nat := s.schedule_order.length

/-- The global `ready_count`. -/
def Planner.ready_count (s : Planner) : Nat := s.ready.length

/-! ## Graph construction -/

/-- The function `add_dependency(u, v)`: a fresh node holding `v` becomes the new
head of the list of `Topics[u]`. -/
def add_dependency (u v : Nat) (s : Planner) : Planner :=
  let t := s.Topics u
  let t1 : Topic := { t with dependencies := v :: t.dependencies }
  { s with Topics := Function.update s.Topics u t1 }

/-- One iteration of the dependency loop of `main`: the pair is checked against
`total_topics`; a valid pair is given to `add_dependency` and then
`in_degree[v]` is incremented, an invalid one is ignored with a warning. -/
def register_dependency (u v : Int) (s : Planner) : Planner :=
  if 0 ≤ u ∧ u < s.total_topics ∧ 0 ≤ v ∧ v < s.total_topics then
    let s1 := add_dependency u.toNat v.toNat s
    { s1 with in_degree := Function.update s1.in_degree v.toNat (s1.in_degree v.toNat + 1) }
  else s

/-! ## The ready list -/

/-- The function `add_to_ready`: `ready[ready_count++] = topic_id`. -/
def add_to_ready (topic_id : Nat) (s : Planner) : Planner :=
  { s with ready := s.ready ++ [topic_id] }

/-- One pass of the body of the scanning loop of `get_highest_priority_topic` at
index `i`; the state is the pair `(best_index, best_topic_id)`. -/
def scan_step (Topics : Nat → Topic) (ready : List Nat) (best : Nat × Nat) (i : Nat) :
    Nat × Nat :=
  let current_id := ready.getD i 0
  let best_id := ready.getD best.1 0
  if (Topics current_id).priority > (Topics best_id).priority then (i, current_id) else best

/-- The scanning loop `for (i = 1; i < ready_count; i++)` started from
`best_index = 0`, `best_topic_id = ready[0]`. -/
def find_best (Topics : Nat → Topic) (ready : List Nat) : Nat × Nat :=
  (List.range (ready.length - 1)).foldl
    (fun best k => scan_step Topics ready best (k + 1)) (0, ready.getD 0 0)

/-- The removal loop `for (j = best_index; j < ready_count - 1; j++)
ready[j] = ready[j + 1]` followed by `ready_count--`. -/
def shift_left (ready : List Nat) (best_index : Nat) : List Nat :=
  ((List.range (ready.length - 1 - best_index)).foldl
    (fun r k => r.set (best_index + k) (r.getD (best_index + k + 1) 0)) ready).take
    (ready.length - 1)

/-- The function `get_highest_priority_topic`.  The result `none` stands for the
return value `-1` on an empty ready list. -/
def get_highest_priority_topic (s : Planner) : Option Nat × Planner :=
  if s.ready.length = 0 then (none, s)
  else
    let best := find_best s.Topics s.ready
    (some best.2, { s with ready := shift_left s.ready best.1 })

/-! ## The scheduler -/

/-- Step A of `generate_priority_order`: every index `i < total_topics` with
`in_degree[i] == 0` is added to the ready list, in increasing order of `i`. -/
def collect_initial (s : Planner) : Planner :=
  (List.range s.total_topics).foldl
    (fun st i => if st.in_degree i = 0 then add_to_ready i st else st) s

/-- The body of the inner loop of `generate_priority_order` for one list node
holding `v`: `in_degree[v]--`, and `v` joins the ready list when the
counter is then `0`. -/
def release_dependent (v : Nat) (s : Planner) : Planner :=
  let s1 := { s with in_degree := Function.update s.in_degree v (s.in_degree v - 1) }
  if s1.in_degree v = 0 then add_to_ready v s1 else s1

/-- The inner loop `while (temp != NULL)` walking the list `temp`. -/
def process_neighbors (temp : List Nat) (s : Planner) : Planner :=
  temp.foldl (fun st v => release_dependent v st) s

/-- One iteration of the loop `while (ready_count > 0)`.  The loop guard makes
the `-1` result of `get_highest_priority_topic` impossible; that branch leaves
the state alone. -/
def loop_iteration (s : Planner) : Planner :=
  match get_highest_priority_topic s with
  | (some u, s1) =>
      let s2 := { s1 with schedule_order := s1.schedule_order ++ [u] }
      process_neighbors (s2.Topics u).dependencies s2
  | (none, s1) => s1

/-- The state after at most `k` iterations of `while (ready_count > 0)`: the loop
stops as soon as the ready list is empty. -/
def run_loop : Nat → Planner → Planner
  | 0, s => s
  | k + 1, s => if s.ready.length > 0 then run_loop k (loop_iteration s) else s

/-- The state at the start of Step B: the counters are reset and Step A has run. -/
def start_state (s : Planner) : Planner :=
  collect_initial { s with schedule_order := [], ready := [] }

/-- The number of iterations of `while (ready_count > 0)` performed from `s`
within a budget of `k` iterations. -/
def loop_iterations : Nat → Planner → Nat
  | 0, _ => 0
  | k + 1, s => if s.ready.length > 0 then loop_iterations k (loop_iteration s) + 1 else 0

/-- A point inside the iteration of the main loop that starts in `s`: the topic has
been extracted and appended to `schedule_order` and the inner loop has handled
the first `m` nodes of its dependents list. -/
def inner_point (s : Planner) (m : Nat) : Planner :=
  match get_highest_priority_topic s with
  | (some u, s1) =>
      let s2 := { s1 with schedule_order := s1.schedule_order ++ [u] }
      process_neighbors ((s2.Topics u).dependencies.take m) s2
  | (none, s1) => s1

/-- A point inside Step A: the counters are reset and the indices below `i` have
been examined. -/
def start_point (s : Planner) (i : Nat) : Planner :=
  (List.range i).foldl
    (fun st j => if st.in_degree j = 0 then add_to_ready j st else st)
    { s with schedule_order := [], ready := [] }

/-- How a call of `generate_priority_order` ends: it returns, it prints the
circular-dependency error and exits, or the iteration budget of the model is
used up while the ready list is still non-empty. -/
inductive Outcome where
  | returned (s : Planner)
  | circular (s : Planner)
  | unfinished (s : Planner)

/-- The function `generate_priority_order`, with a bound `fuel` on the number of
iterations of the main loop. -/
def generate_priority_order (fuel : Nat) (s : Planner) : Outcome :=
  let s2 := run_loop fuel (start_state s)
  if s2.ready.length > 0 then Outcome.unfinished s2
  else if s2.schedule_order.length ≠ s2.total_topics then Outcome.circular s2
  else Outcome.returned s2

/-! ## The day packer -/

/-- The local state of `print_schedule` together with what has been printed:
`printed` holds the finished day blocks (day number, topics listed under it) and
`block` the topics listed so far under the last `Day` header. -/
structure PackState where
  current_day : Int
  day_time_used : Int
  printed : List (Int × List Nat)
  block : List Nat

/-- The smallest value of a C `int`. -/
def INT_MIN : Int := -2147483648

/-- The largest value of a C `int`. -/
def INT_MAX : Int := 2147483647

/-- The 32-bit two's complement value of an integer: the result of an `int`
addition whose exact sum is `x`. -/
def wrap32 (x : Int) : Int := (x + 2147483648) % 4294967296 - 2147483648

/-- The body of the loop of `print_schedule` for one entry of `schedule_order`;
`day_time_used + dur` and `day_time_used += dur` are `int` additions. -/
def place_topic (Topics : Nat → Topic) (daily_limit : Int) (st : PackState)
    (topic_id : Nat) : PackState :=
  let dur := (Topics topic_id).duration
  if wrap32 (st.day_time_used + dur) ≤ daily_limit then
    { st with block := st.block ++ [topic_id], day_time_used := wrap32 (st.day_time_used + dur) }
  else
    { current_day := st.current_day + 1
      day_time_used := wrap32 (0 + dur)
      printed := st.printed ++ [(st.current_day, st.block)]
      block := [topic_id] }

/-- The function `print_schedule`: the list of day blocks it prints, each with its
day number and the topics listed under the header, in order. -/
def print_schedule (daily_limit : Int) (s : Planner) : List (Int × List Nat) :=
  if s.schedule_order.length = 0 then []
  else
    let st := s.schedule_order.foldl (place_topic s.Topics daily_limit)
      { current_day := 1, day_time_used := 0, printed := [], block := [] }
    st.printed ++ [(st.current_day, st.block)]

/-- No addition of the packing loop, run from the state `st` over the topics `l`,
leaves the range of `int`: every duration met is an `int` value and every exact
sum `day_time_used + dur` lies between `INT_MIN` and `INT_MAX`. -/
def sums_fit (Topics : Nat → Topic) (daily_limit : Int) : PackState → List Nat → Bool
  | _, [] => true
  | st, t :: rest =>
      decide (INT_MIN ≤ (Topics t).duration ∧ (Topics t).duration ≤ INT_MAX ∧
        INT_MIN ≤ st.day_time_used + (Topics t).duration ∧
        st.day_time_used + (Topics t).duration ≤ INT_MAX) &&
      sums_fit Topics daily_limit (place_topic Topics daily_limit st t) rest

/-- No addition made by `print_schedule` on the state `s` with the given daily limit
leaves the range of `int`. -/
def no_overflow (daily_limit : Int) (s : Planner) : Bool :=
  sums_fit s.Topics daily_limit
    { current_day := 1, day_time_used := 0, printed := [], block := [] } s.schedule_order

/-- The total duration of a list of topics. -/
def total_duration (Topics : Nat → Topic) (l : List Nat) : Int :=
  (l.map fun t => (Topics t).duration).sum

/-! ## Specification vocabulary -/

/-- The recorded edge relation: `d` occurs in the dependents list of the existing
topic `p`. -/
def Edge (s : Planner) (p d : Nat) : Prop :=
  p < s.total_topics ∧ d ∈ (s.Topics p).dependencies

/-- The number of recorded edges into `v`, with multiplicity, whose prerequisite is
not in `order`. -/
def pending (s : Planner) (order : List Nat) (v : Nat) : Nat :=
  ((List.range s.total_topics).map fun p =>
    if p ∈ order then 0 else (s.Topics p).dependencies.count v).sum

/-- The number of recorded edges into `v`, duplicate edges counted. -/
def edges_into (s : Planner) (v : Nat) : Nat :=
  ((List.range s.total_topics).map fun p => (s.Topics p).dependencies.count v).sum

/-- A consistent graph state: at most `MAX_TOPICS` topics, only valid ids in the
dependents lists, and every in-degree counter equal to the number of recorded
edges into its topic. -/
structure Consistent (s : Planner) : Prop where
  bound : s.total_topics ≤ MAX_TOPICS
  valid : ∀ p < s.total_topics, ∀ d ∈ (s.Topics p).dependencies, d < s.total_topics
  degree : ∀ v < s.total_topics, s.in_degree v = (edges_into s v : Int)

/-- The recorded edge relation contains a cycle. -/
def HasCycle (s : Planner) : Prop := ∃ v, Relation.TransGen (Edge s) v v

/-- The value `x` occurs in `l` at a strictly smaller index than `y`. -/
def Before (l : List Nat) (x y : Nat) : Prop :=
  ∃ i j : Nat, i < j ∧ l[i]? = some x ∧ l[j]? = some y

/-- The three stages a pair `x`, `y` of ready topics passes through, `x` standing
before `y` in the ready list: both still wait in the ready list in that order,
then `x` is scheduled while `y` waits, then both are scheduled with `x` first. -/
def TieStage (x y : Nat) (s : Planner) : Prop :=
  Before s.ready x y ∨ (x ∈ s.schedule_order ∧ y ∈ s.ready) ∨ Before s.schedule_order x y

/-- The day blocks printed once the packer is in state `st`: the finished blocks
followed by the block under the last header. -/
def PackState.blocks (st : PackState) : List (Int × List Nat) :=
  st.printed ++ [(st.current_day, st.block)]

/-- A day respects the capacity or holds exactly one topic that is longer than the
capacity. -/
def FitsOrAlone (Topics : Nat → Topic) (daily_limit : Int) (day : List Nat) : Prop :=
  total_duration Topics day ≤ daily_limit ∨
    ∃ t, day = [t] ∧ daily_limit < (Topics t).duration

/-- The relation between two consecutive printed days: the later day starts with
a topic that did not fit into what the earlier day had used up. -/
def OpensWhenFull (Topics : Nat → Topic) (daily_limit : Int) (d1 d2 : Int × List Nat) : Prop :=
  ∃ t rest, d2.2 = t :: rest ∧ daily_limit < total_duration Topics d1.2 + (Topics t).duration

/-- The bounds a state of the scheduler respects relative to the graph `g`: no id
occurs twice in the ready list and the schedule order taken together, every
entry is a topic id, and the two counters together do not exceed the number of
topics, which is at most `MAX_TOPICS`. -/
def InBounds (g p : Planner) : Prop :=
  (p.ready ++ p.schedule_order).Nodup ∧
  (∀ v, v ∈ p.ready ++ p.schedule_order → v < g.total_topics) ∧
  p.ready_count + p.order_count ≤ g.total_topics ∧
  p.ready_count ≤ MAX_TOPICS ∧ p.order_count ≤ MAX_TOPICS

/-! ## Invariants -/

/-- What the scanning loop has established after its first `m` passes. -/
structure ScanInv (Topics : Nat → Topic) (ready : List Nat) (m : Nat) (best : Nat × Nat) :
    Prop where
  le : best.1 ≤ m
  get : ready[best.1]? = some best.2
  max : ∀ j y, j ≤ m → ready[j]? = some y → (Topics y).priority ≤ (Topics best.2).priority
  first : ∀ j y, j < best.1 → ready[j]? = some y →
    (Topics y).priority < (Topics best.2).priority

/-- The invariant of the scheduler relative to the graph `g` it was started on;
`rest` is the part of the current dependents list the inner loop still has to
walk (empty between iterations of the main loop). -/
structure LoopInv (g : Planner) (rest : List Nat) (s : Planner) : Prop where
  topics : s.Topics = g.Topics
  total : s.total_topics = g.total_topics
  degree : ∀ v, v < g.total_topics →
    s.in_degree v = (pending g s.schedule_order v : Int) + (rest.count v : Int)
  ready_iff : ∀ v, v ∈ s.ready ↔
    v < g.total_topics ∧ v ∉ s.schedule_order ∧ s.in_degree v = 0
  ready_nodup : s.ready.Nodup
  order_nodup : s.schedule_order.Nodup
  order_lt : ∀ v, v ∈ s.schedule_order → v < g.total_topics
  topo : ∀ j d, s.schedule_order[j]? = some d → ∀ p, Edge g p d →
    p ∈ s.schedule_order.take j
  greedy : ∀ i x, s.schedule_order[i]? = some x → ∀ w, w < g.total_topics →
    w ∉ s.schedule_order.take i → (∀ p, Edge g p w → p ∈ s.schedule_order.take i) →
    (g.Topics w).priority ≤ (g.Topics x).priority
  rest_fresh : ∀ v, v ∈ rest → v < g.total_topics ∧ v ∉ s.schedule_order

/-- The bookkeeping invariant of the scheduler that needs no assumption on the
in-degree table: relative to the graph `g`, no id occurs twice in the ready list
and the schedule order taken together, all their entries are topic ids, and the
counter of every entry is at most `0`. -/
structure SafeInv (g : Planner) (s : Planner) : Prop where
  topics : s.Topics = g.Topics
  total : s.total_topics = g.total_topics
  ready_nodup : s.ready.Nodup
  order_nodup : s.schedule_order.Nodup
  disjoint : ∀ v, v ∈ s.ready → v ∉ s.schedule_order
  ready_lt : ∀ v, v ∈ s.ready → v < g.total_topics
  order_lt : ∀ v, v ∈ s.schedule_order → v < g.total_topics
  ready_nonpos : ∀ v, v ∈ s.ready → s.in_degree v ≤ 0
  order_nonpos : ∀ v, v ∈ s.schedule_order → s.in_degree v ≤ 0

/-! ## Sample inputs -/

/-- Topics A (2h, priority 5) and B (3h, priority 5) with the dependency A → B. -/
def chain_topics : Nat → Topic := fun i =>
  match i with
  | 0 => { id := 0, name := "A", duration := 2, priority := 5, dependencies := [1] }
  | 1 => { id := 1, name := "B", duration := 3, priority := 5, dependencies := [] }
  | _ => { id := i, name := "", duration := 0, priority := 0, dependencies := [] }

/-- The state after the input phase for `chain_topics`. -/
def chain_state : Planner :=
  { Topics := chain_topics
    in_degree := fun i => if i = 1 then 1 else 0
    schedule_order := []
    total_topics := 2
    ready := [] }

/-- Topics A and B with the dependencies A → B and B → A. -/
def mutual_topics : Nat → Topic := fun i =>
  match i with
  | 0 => { id := 0, name := "A", duration := 1, priority := 1, dependencies := [1] }
  | 1 => { id := 1, name := "B", duration := 1, priority := 1, dependencies := [0] }
  | _ => { id := i, name := "", duration := 0, priority := 0, dependencies := [] }

/-- The state after the input phase for `mutual_topics`. -/
def mutual_state : Planner :=
  { Topics := mutual_topics
    in_degree := fun i => if i < 2 then 1 else 0
    schedule_order := []
    total_topics := 2
    ready := [] }

/-- Topics A (2h, priority 5) and B (3h, priority 8) without dependencies. -/
def plain_topics : Nat → Topic := fun i =>
  match i with
  | 0 => { id := 0, name := "A", duration := 2, priority := 5, dependencies := [] }
  | 1 => { id := 1, name := "B", duration := 3, priority := 8, dependencies := [] }
  | _ => { id := i, name := "", duration := 0, priority := 0, dependencies := [] }

/-- The state after the input phase for `plain_topics`. -/
def plain_state : Planner :=
  { Topics := plain_topics
    in_degree := fun _ => 0
    schedule_order := []
    total_topics := 2
    ready := [] }

/-- Topics A (2h, priority 5) and B (3h, priority 5) without dependencies. -/
def tie_topics : Nat → Topic := fun i =>
  match i with
  | 0 => { id := 0, name := "A", duration := 2, priority := 5, dependencies := [] }
  | 1 => { id := 1, name := "B", duration := 3, priority := 5, dependencies := [] }
  | _ => { id := i, name := "", duration := 0, priority := 0, dependencies := [] }

/-- The state after the input phase for `tie_topics`. -/
def tie_state : Planner :=
  { Topics := tie_topics
    in_degree := fun _ => 0
    schedule_order := []
    total_topics := 2
    ready := [] }

/-- Topic A (8h, priority 1) alone, without dependencies. -/
def oversized_topics : Nat → Topic := fun i =>
  match i with
  | 0 => { id := 0, name := "A", duration := 8, priority := 1, dependencies := [] }
  | _ => { id := i, name := "", duration := 0, priority := 0, dependencies := [] }

/-- The state after the input phase for `oversized_topics`. -/
def oversized_state : Planner :=
  { Topics := oversized_topics
    in_degree := fun _ => 0
    schedule_order := []
    total_topics := 1
    ready := [] }

/-- Three topics of equal priority without dependencies: the state before any
dependency is registered. -/
def fan_base : Planner :=
  { Topics := fun i => { id := i, name := "", duration := 1, priority := 5, dependencies := [] }
    in_degree := fun _ => 0
    schedule_order := []
    total_topics := 3
    ready := [] }

/-- The state after the input phase has registered `(0, 1)` and then `(0, 2)`. -/
def fan_state : Planner :=
  register_dependency 0 2 (register_dependency 0 1 fan_base)

/-- Topics A (2h, priority 5) and B (3h, priority 8) with the dependency A → B. -/
def uphill_topics : Nat → Topic := fun i =>
  match i with
  | 0 => { id := 0, name := "A", duration := 2, priority := 5, dependencies := [1] }
  | 1 => { id := 1, name := "B", duration := 3, priority := 8, dependencies := [] }
  | _ => { id := i, name := "", duration := 0, priority := 0, dependencies := [] }

/-- The state after the input phase for `uphill_topics`. -/
def uphill_state : Planner :=
  { Topics := uphill_topics
    in_degree := fun i => if i = 1 then 1 else 0
    schedule_order := []
    total_topics := 2
    ready := [] }

/-- The state after an input phase that declares zero topics. -/
def empty_state : Planner :=
  { Topics := fun i => { id := i, name := "", duration := 0, priority := 0, dependencies := [] }
    in_degree := fun _ => 0
    schedule_order := []
    total_topics := 0
    ready := [] }

/-- Topics A (2147483647h) and B (1h), both of priority 1, without dependencies. -/
def huge_topics : Nat → Topic := fun i =>
  match i with
  | 0 => { id := 0, name := "A", duration := 2147483647, priority := 1, dependencies := [] }
  | 1 => { id := 1, name := "B", duration := 1, priority := 1, dependencies := [] }
  | _ => { id := i, name := "", duration := 0, priority := 0, dependencies := [] }

/-- The state after the scheduler has ordered `huge_topics` as `A, B`. -/
def huge_state : Planner :=
  { Topics := huge_topics
    in_degree := fun _ => 0
    schedule_order := [0, 1]
    total_topics := 2
    ready := [] }

/-- Topics A (-2147483648h) and B (-1h), both of priority 1, without dependencies:
durations the input phase accepts although the data model asks for positive
ones. -/
def negative_topics : Nat → Topic := fun i =>
  match i with
  | 0 => { id := 0, name := "A", duration := -2147483648, priority := 1, dependencies := [] }
  | 1 => { id := 1, name := "B", duration := -1, priority := 1, dependencies := [] }
  | _ => { id := i, name := "", duration := 0, priority := 0, dependencies := [] }

/-- The state after the scheduler has ordered `negative_topics` as `A, B`. -/
def negative_state : Planner :=
  { Topics := negative_topics
    in_degree := fun _ => 0
    schedule_order := [0, 1]
    total_topics := 2
    ready := [] }

/-! ## Extraction from the ready list -/

theorem scan_inv (Topics : Nat → Topic) (ready : List Nat) (m : Nat)
    (hm : m + 1 ≤ ready.length) :
    ScanInv Topics ready m ((List.range m).foldl
      (fun best k => scan_step Topics ready best (k + 1)) (0, ready.getD 0 0)) := by
  induction m with
  | zero =>
    have h0 : ready[0]? = some (ready.getD 0 0) := by
      cases ready with
      | nil => simp at hm
      | cons a l => simp
    refine ⟨le_refl _, h0, ?_, ?_⟩
    · intro j y hj hy
      have : j = 0 := by omega
      subst this
      rw [h0] at hy
      cases hy
      exact le_refl _
    · intro j y hj
      simp at hj
  | succ m ih =>
    have ih := ih (by omega)
    rw [List.range_succ, List.foldl_append]
    simp only [List.foldl_cons, List.foldl_nil]
    generalize (List.range m).foldl
      (fun best k => scan_step Topics ready best (k + 1)) (0, ready.getD 0 0) = best at ih
    have hcur : ready[m + 1]? = some (ready.getD (m + 1) 0) := by
      rw [List.getD_eq_getElem?_getD, List.getElem?_eq_getElem (by omega)]
      simp
    have hbest : ready.getD best.1 0 = best.2 := by
      rw [List.getD_eq_getElem?_getD, ih.get]
      simp
    unfold scan_step
    simp only [hbest]
    split
    · rename_i hgt
      refine ⟨le_refl _, hcur, ?_, ?_⟩
      · intro j y hj hy
        rcases Nat.lt_or_ge j (m + 1) with h | h
        · exact le_of_lt (lt_of_le_of_lt (ih.max j y (by omega) hy) hgt)
        · have : j = m + 1 := by omega
          subst this
          rw [hcur] at hy
          cases hy
          exact le_refl _
      · intro j y hj hy
        exact lt_of_le_of_lt (ih.max j y (by omega) hy) hgt
    · rename_i hgt
      refine ⟨by have := ih.le; omega, ih.get, ?_, ih.first⟩
      intro j y hj hy
      rcases Nat.lt_or_ge j (m + 1) with h | h
      · exact ih.max j y (by omega) hy
      · have : j = m + 1 := by omega
        subst this
        rw [hcur] at hy
        cases hy
        exact not_lt.mp hgt

theorem find_best_inv (Topics : Nat → Topic) (ready : List Nat) (h : ready ≠ []) :
    ScanInv Topics ready (ready.length - 1) (find_best Topics ready) := by
  have hl : 0 < ready.length := List.length_pos.mpr h
  exact scan_inv Topics ready (ready.length - 1) (by omega)

theorem shift_fold_get (ready : List Nat) (b m : Nat) (hm : b + m + 1 ≤ ready.length) (i : Nat) :
    ((List.range m).foldl
      (fun r k => r.set (b + k) (r.getD (b + k + 1) 0)) ready)[i]? =
      if b ≤ i ∧ i < b + m then ready[i + 1]? else ready[i]? := by
  induction m generalizing i with
  | zero =>
    rw [if_neg (by omega)]
    rfl
  | succ m ih =>
    rw [List.range_succ, List.foldl_append]
    simp only [List.foldl_cons, List.foldl_nil]
    have ih1 := fun i => ih (by omega) i
    generalize hr : (List.range m).foldl
      (fun r k => r.set (b + k) (r.getD (b + k + 1) 0)) ready = r at ih1
    have hlen : r.length = ready.length := by
      rw [← hr]
      clear hr ih1 ih hm
      induction m with
      | zero => simp
      | succ m ihm =>
        rw [List.range_succ, List.foldl_append]
        simp only [List.foldl_cons, List.foldl_nil, List.length_set]
        exact ihm
    rw [List.getElem?_set]
    have hnext : r.getD (b + m + 1) 0 = ready.getD (b + m + 1) 0 := by
      rw [List.getD_eq_getElem?_getD, List.getD_eq_getElem?_getD, ih1]
      simp
    by_cases hi : b + m = i
    · subst hi
      simp only [if_true, hlen]
      rw [if_pos (by omega), if_pos (by omega), hnext, List.getD_eq_getElem?_getD,
        List.getElem?_eq_getElem (by omega)]
      simp
    · rw [if_neg hi, ih1]
      by_cases h1 : b ≤ i ∧ i < b + m
      · rw [if_pos h1, if_pos (by omega)]
      · rw [if_neg h1, if_neg (by omega)]

theorem shift_left_eq_eraseIdx (ready : List Nat) (b : Nat) (hb : b < ready.length) :
    shift_left ready b = ready.eraseIdx b := by
  apply List.ext_getElem?
  intro i
  unfold shift_left
  rw [List.getElem?_take, shift_fold_get ready b _ (by omega), List.getElem?_eraseIdx]
  by_cases h1 : i < ready.length - 1
  · rw [if_pos h1]
    by_cases h2 : i < b
    · rw [if_pos h2, if_neg (by omega)]
    · rw [if_neg h2, if_pos (by omega)]
  · rw [if_neg h1]
    by_cases h2 : i < b
    · omega
    · rw [if_neg h2, List.getElem?_eq_none (by omega)]

/-! ## Counting pending edges -/

theorem pending_nil (s : Planner) (v : Nat) : pending s [] v = edges_into s v := by
  simp [pending, edges_into]

theorem pending_eq_sum (s : Planner) (order : List Nat) (v : Nat) :
    pending s order v = ∑ p in Finset.range s.total_topics,
      if p ∈ order then 0 else (s.Topics p).dependencies.count v := by
  unfold pending
  generalize s.total_topics = n
  induction n with
  | zero => simp
  | succ n ih =>
    rw [List.range_succ, List.map_append, List.sum_append, Finset.sum_range_succ, ih]
    simp

theorem pending_append (s : Planner) (order : List Nat) (u v : Nat)
    (hu : u < s.total_topics) (hn : u ∉ order) :
    pending s order v = pending s (order ++ [u]) v + (s.Topics u).dependencies.count v := by
  rw [pending_eq_sum, pending_eq_sum]
  have hmem : u ∈ Finset.range s.total_topics := Finset.mem_range.mpr hu
  rw [← Finset.add_sum_erase _ _ hmem, ← Finset.add_sum_erase _ _ hmem]
  have hrest : ∀ p ∈ (Finset.range s.total_topics).erase u,
      (if p ∈ order then 0 else (s.Topics p).dependencies.count v) =
      (if p ∈ order ++ [u] then 0 else (s.Topics p).dependencies.count v) := by
    intro p hp
    have hne : p ≠ u := (Finset.mem_erase.mp hp).1
    simp [hne]
  rw [Finset.sum_congr rfl hrest]
  simp [hn]
  omega

theorem pending_eq_zero_iff (s : Planner) (order : List Nat) (v : Nat) :
    pending s order v = 0 ↔ ∀ p, Edge s p v → p ∈ order := by
  rw [pending_eq_sum, Finset.sum_eq_zero_iff]
  constructor
  · intro h p hp
    by_contra hno
    have := h p (Finset.mem_range.mpr hp.1)
    rw [if_neg hno] at this
    exact (List.count_eq_zero.mp this) hp.2
  · intro h p hp
    by_cases hin : p ∈ order
    · rw [if_pos hin]
    · rw [if_neg hin]
      apply List.count_eq_zero.mpr
      intro hv
      exact hin (h p ⟨Finset.mem_range.mp hp, hv⟩)

/-! ## Frame lemmas for the loop body -/

theorem release_dependent_Topics (v : Nat) (s : Planner) :
    (release_dependent v s).Topics = s.Topics := by
  unfold release_dependent add_to_ready
  dsimp only
  split <;> rfl

theorem release_dependent_total (v : Nat) (s : Planner) :
    (release_dependent v s).total_topics = s.total_topics := by
  unfold release_dependent add_to_ready
  dsimp only
  split <;> rfl

theorem release_dependent_order (v : Nat) (s : Planner) :
    (release_dependent v s).schedule_order = s.schedule_order := by
  unfold release_dependent add_to_ready
  dsimp only
  split <;> rfl

theorem release_dependent_in_degree (v : Nat) (s : Planner) :
    (release_dependent v s).in_degree =
      Function.update s.in_degree v (s.in_degree v - 1) := by
  unfold release_dependent add_to_ready
  dsimp only
  split <;> rfl

theorem release_dependent_ready (v : Nat) (s : Planner) :
    (release_dependent v s).ready =
      if s.in_degree v - 1 = 0 then s.ready ++ [v] else s.ready := by
  unfold release_dependent add_to_ready
  dsimp only
  rw [Function.update_same]
  split <;> rfl

theorem get_highest_priority_topic_eq (s : Planner) (h : s.ready ≠ []) :
    get_highest_priority_topic s =
      (some (find_best s.Topics s.ready).2,
        { s with ready := s.ready.eraseIdx (find_best s.Topics s.ready).1 }) := by
  have hl : 0 < s.ready.length := List.length_pos.mpr h
  have hb := (find_best_inv s.Topics s.ready h).le
  unfold get_highest_priority_topic
  rw [if_neg (by omega)]
  dsimp only
  rw [shift_left_eq_eraseIdx _ _ (by omega)]

theorem loop_iteration_eq (s : Planner) (h : s.ready ≠ []) :
    loop_iteration s =
      process_neighbors (s.Topics (find_best s.Topics s.ready).2).dependencies
        { s with ready := s.ready.eraseIdx (find_best s.Topics s.ready).1
                 schedule_order := s.schedule_order ++ [(find_best s.Topics s.ready).2] } := by
  unfold loop_iteration
  rw [get_highest_priority_topic_eq s h]

/-! ## The loop invariant -/

theorem LoopInv.release {g : Planner} {v : Nat} {rest : List Nat} {s : Planner}
    (h : LoopInv g (v :: rest) s) : LoopInv g rest (release_dependent v s) := by
  have hv := h.rest_fresh v (List.mem_cons_self _ _)
  have hdeg := h.degree v hv.1
  rw [List.count_cons_self] at hdeg
  have hpos : s.in_degree v ≠ 0 := by push_cast at hdeg; omega
  have hnotready : v ∉ s.ready := fun hm => hpos ((h.ready_iff v).mp hm).2.2
  refine ⟨?_, ?_, ?_, ?_, ?_, ?_, ?_, ?_, ?_, ?_⟩
  · rw [release_dependent_Topics]; exact h.topics
  · rw [release_dependent_total]; exact h.total
  · intro w hw
    rw [release_dependent_in_degree, release_dependent_order]
    by_cases hwv : w = v
    · subst hwv
      rw [Function.update_same, hdeg]
      push_cast
      omega
    · rw [Function.update_noteq hwv, h.degree w hw, List.count_cons_of_ne hwv]
  · intro w
    rw [release_dependent_in_degree, release_dependent_order, release_dependent_ready]
    by_cases hwv : w = v
    · subst hwv
      rw [Function.update_same]
      by_cases hz : s.in_degree w - 1 = 0
      · rw [if_pos hz]
        simp [hv.1, hv.2, hz]
      · rw [if_neg hz]
        simp [hnotready, hz]
    · rw [Function.update_noteq hwv]
      by_cases hz : s.in_degree v - 1 = 0
      · rw [if_pos hz, List.mem_append, List.mem_singleton]
        simp [hwv, h.ready_iff w]
      · rw [if_neg hz]
        exact h.ready_iff w
  · rw [release_dependent_ready]
    split
    · exact List.Nodup.append h.ready_nodup (List.nodup_singleton v)
        (by
          intro a ha hav
          rw [List.mem_singleton] at hav
          exact hnotready (hav ▸ ha))
    · exact h.ready_nodup
  · rw [release_dependent_order]; exact h.order_nodup
  · rw [release_dependent_order]; exact h.order_lt
  · rw [release_dependent_order]; exact h.topo
  · rw [release_dependent_order]; exact h.greedy
  · intro w hw
    rw [release_dependent_order]
    exact h.rest_fresh w (List.mem_cons_of_mem _ hw)

theorem LoopInv.process {g : Planner} (rest : List Nat) {s : Planner}
    (h : LoopInv g rest s) : LoopInv g [] (process_neighbors rest s) := by
  induction rest generalizing s with
  | nil => exact h
  | cons v rest ih => exact ih h.release

/-! ## List facts used by the main loop -/

theorem getElem?_snoc_cases {l : List Nat} {u d : Nat} {j : Nat}
    (h : (l ++ [u])[j]? = some d) :
    (l[j]? = some d ∧ (l ++ [u]).take j = l.take j) ∨
    (j = l.length ∧ d = u ∧ (l ++ [u]).take j = l) := by
  rcases Nat.lt_trichotomy j l.length with hlt | heq | hgt
  · left
    rw [List.getElem?_append_left hlt] at h
    exact ⟨h, List.take_append_of_le_length (le_of_lt hlt)⟩
  · right
    subst heq
    rw [List.getElem?_append_right (le_refl _)] at h
    simp at h
    exact ⟨rfl, h.symm, by simp⟩
  · rw [List.getElem?_eq_none (by simp; omega)] at h
    cases h

theorem mem_eraseIdx_of_nodup {l : List Nat} {k u : Nat} (hl : l.Nodup)
    (hk : l[k]? = some u) (v : Nat) : v ∈ l.eraseIdx k ↔ v ∈ l ∧ v ≠ u := by
  obtain ⟨hlt, hget⟩ := List.getElem?_eq_some.mp hk
  rw [← hl.erase_getElem k hlt, hget, hl.mem_erase_iff]
  exact And.comm

theorem mem_of_getElem?_eq_some {l : List Nat} {k u : Nat} (hk : l[k]? = some u) : u ∈ l := by
  obtain ⟨hlt, hget⟩ := List.getElem?_eq_some.mp hk
  exact hget ▸ List.getElem_mem hlt

theorem exists_getElem?_of_mem {l : List Nat} {u : Nat} (h : u ∈ l) :
    ∃ k, k < l.length ∧ l[k]? = some u := by
  obtain ⟨k, hlt, hget⟩ := List.getElem_of_mem h
  exact ⟨k, hlt, List.getElem?_eq_some.mpr ⟨hlt, hget⟩⟩

/-! ## One iteration of the main loop keeps the invariant -/

theorem LoopInv.extract {g s : Planner}
    (hvalid : ∀ p < g.total_topics, ∀ d ∈ (g.Topics p).dependencies, d < g.total_topics)
    (h : LoopInv g [] s) (hne : s.ready ≠ []) :
    LoopInv g (s.Topics (find_best s.Topics s.ready).2).dependencies
      { s with ready := s.ready.eraseIdx (find_best s.Topics s.ready).1
               schedule_order := s.schedule_order ++ [(find_best s.Topics s.ready).2] } := by
  have hb := find_best_inv s.Topics s.ready hne
  generalize find_best s.Topics s.ready = best at hb
  obtain ⟨k, u⟩ := best
  have hget : s.ready[k]? = some u := hb.get
  have hmem : u ∈ s.ready := mem_of_getElem?_eq_some hget
  obtain ⟨huN, hunot, hu0⟩ := (h.ready_iff u).mp hmem
  have hpend0 : pending g s.schedule_order u = 0 := by
    have := h.degree u huN
    rw [hu0] at this
    simp at this
    omega
  have hprereq := (pending_eq_zero_iff g _ u).mp hpend0
  have hready_of : ∀ w, w < g.total_topics → w ∉ s.schedule_order →
      (∀ p, Edge g p w → p ∈ s.schedule_order) → w ∈ s.ready := by
    intro w hw hwn hall
    refine (h.ready_iff w).mpr ⟨hw, hwn, ?_⟩
    rw [h.degree w hw, (pending_eq_zero_iff g _ w).mpr hall]
    simp
  refine ⟨h.topics, h.total, ?_, ?_, ?_, ?_, ?_, ?_, ?_, ?_⟩
  · intro v hv
    dsimp only
    rw [h.degree v hv, pending_append g s.schedule_order u v huN hunot, h.topics]
    simp
  · intro v
    dsimp only
    rw [mem_eraseIdx_of_nodup h.ready_nodup hget, h.ready_iff v]
    simp only [List.mem_append, List.mem_singleton, not_or]
    constructor
    · rintro ⟨⟨h1, h2, h3⟩, h4⟩
      exact ⟨h1, ⟨h2, h4⟩, h3⟩
    · rintro ⟨h1, ⟨h2, h4⟩, h3⟩
      exact ⟨⟨h1, h2, h3⟩, h4⟩
  · exact h.ready_nodup.sublist (List.eraseIdx_sublist _ _)
  · dsimp only
    exact List.Nodup.append h.order_nodup (List.nodup_singleton u)
      (by
        intro a ha hau
        rw [List.mem_singleton] at hau
        exact hunot (hau ▸ ha))
  · intro v hv
    dsimp only at hv
    rcases List.mem_append.mp hv with hv | hv
    · exact h.order_lt v hv
    · rw [List.mem_singleton] at hv
      exact hv ▸ huN
  · intro j d hj p hp
    dsimp only at hj ⊢
    rcases getElem?_snoc_cases hj with ⟨h1, h2⟩ | ⟨_, h2, h3⟩
    · rw [h2]
      exact h.topo j d h1 p hp
    · rw [h3]
      exact hprereq p (h2 ▸ hp)
  · intro i x hi w hw hwn hall
    dsimp only at hi hwn hall
    rcases getElem?_snoc_cases hi with ⟨h1, h2⟩ | ⟨_, h2, h3⟩
    · rw [h2] at hwn hall
      exact h.greedy i x h1 w hw hwn hall
    · rw [h3] at hwn hall
      obtain ⟨j, hj, hjw⟩ := exists_getElem?_of_mem (hready_of w hw hwn hall)
      have := hb.max j w (by omega) hjw
      rw [h.topics] at this
      rw [h2]
      exact this
  · intro v hv
    dsimp only at hv ⊢
    rw [h.topics] at hv
    have hedge : Edge g u v := ⟨huN, hv⟩
    refine ⟨hvalid u huN v hv, ?_⟩
    intro hin
    rcases List.mem_append.mp hin with hin | hin
    · obtain ⟨j, _, hj⟩ := exists_getElem?_of_mem hin
      exact hunot (List.mem_of_mem_take (h.topo j v hj u hedge))
    · rw [List.mem_singleton] at hin
      exact hunot (hprereq u (hin ▸ hedge))

theorem LoopInv.iteration {g s : Planner}
    (hvalid : ∀ p < g.total_topics, ∀ d ∈ (g.Topics p).dependencies, d < g.total_topics)
    (h : LoopInv g [] s) (hne : s.ready ≠ []) : LoopInv g [] (loop_iteration s) := by
  rw [loop_iteration_eq s hne]
  exact LoopInv.process _ (h.extract hvalid hne)

/-! ## The start state and the run of the main loop -/

theorem collect_fold (l : List Nat) (s : Planner) :
    l.foldl (fun st i => if st.in_degree i = 0 then add_to_ready i st else st) s =
      { s with ready := s.ready ++ l.filter (fun i => decide (s.in_degree i = 0)) } := by
  induction l generalizing s with
  | nil => simp
  | cons a l ih =>
    rw [List.foldl_cons, ih]
    by_cases h : s.in_degree a = 0
    · simp [h, add_to_ready]
    · simp [h]

theorem start_state_eq (s : Planner) :
    start_state s = { s with
      schedule_order := []
      ready := (List.range s.total_topics).filter (fun i => decide (s.in_degree i = 0)) } := by
  unfold start_state collect_initial
  rw [collect_fold]
  simp

theorem LoopInv.start {g : Planner} (hc : Consistent g) : LoopInv g [] (start_state g) := by
  rw [start_state_eq]
  refine ⟨rfl, rfl, ?_, ?_, ?_, ?_, ?_, ?_, ?_, ?_⟩
  · intro v hv
    dsimp only
    rw [hc.degree v hv, pending_nil]
    simp
  · intro v
    simp
  · exact (List.nodup_range _).filter _
  · exact List.nodup_nil
  · intro v hv
    cases hv
  · intro j d hj
    simp at hj
  · intro i x hi
    simp at hi
  · intro v hv
    cases hv

theorem run_loop_succ (k : Nat) (s : Planner) :
    run_loop (k + 1) s = if s.ready.length > 0 then run_loop k (loop_iteration s) else s :=
  rfl

theorem LoopInv.run {g s : Planner}
    (hvalid : ∀ p < g.total_topics, ∀ d ∈ (g.Topics p).dependencies, d < g.total_topics)
    (k : Nat) (h : LoopInv g [] s) : LoopInv g [] (run_loop k s) := by
  induction k generalizing s with
  | zero => exact h
  | succ k ih =>
    rw [run_loop_succ]
    split
    · rename_i hpos
      exact ih (h.iteration hvalid (List.length_pos.mp hpos))
    · exact h

theorem process_neighbors_order (l : List Nat) (s : Planner) :
    (process_neighbors l s).schedule_order = s.schedule_order := by
  unfold process_neighbors
  induction l generalizing s with
  | nil => rfl
  | cons v l ih => rw [List.foldl_cons, ih, release_dependent_order]

theorem process_neighbors_ready (l : List Nat) (s : Planner) :
    ∃ added, (process_neighbors l s).ready = s.ready ++ added := by
  unfold process_neighbors
  induction l generalizing s with
  | nil => exact ⟨[], by simp⟩
  | cons v l ih =>
    obtain ⟨added, h⟩ := ih (release_dependent v s)
    rw [List.foldl_cons, h, release_dependent_ready]
    split
    · exact ⟨[v] ++ added, by simp⟩
    · exact ⟨added, rfl⟩

theorem loop_iteration_order (s : Planner) (h : s.ready ≠ []) :
    (loop_iteration s).schedule_order =
      s.schedule_order ++ [(find_best s.Topics s.ready).2] := by
  rw [loop_iteration_eq s h, process_neighbors_order]

theorem loop_iteration_ready (s : Planner) (h : s.ready ≠ []) :
    ∃ added, (loop_iteration s).ready =
      s.ready.eraseIdx (find_best s.Topics s.ready).1 ++ added := by
  rw [loop_iteration_eq s h]
  exact process_neighbors_ready _ _

theorem LoopInv.order_length_le {g s : Planner} {rest : List Nat} (h : LoopInv g rest s) :
    s.schedule_order.length ≤ g.total_topics := by
  have hsub : s.schedule_order.toFinset ⊆ Finset.range g.total_topics := by
    intro v hv
    exact Finset.mem_range.mpr (h.order_lt v (List.mem_toFinset.mp hv))
  have := Finset.card_le_card hsub
  rwa [List.toFinset_card_of_nodup h.order_nodup, Finset.card_range] at this

theorem LoopInv.order_length_lt {g s : Planner} {rest : List Nat} (h : LoopInv g rest s)
    {v : Nat} (hv : v < g.total_topics) (hn : v ∉ s.schedule_order) :
    s.schedule_order.length < g.total_topics := by
  have hsub : s.schedule_order.toFinset ⊆ (Finset.range g.total_topics).erase v := by
    intro w hw
    have hw1 := List.mem_toFinset.mp hw
    refine Finset.mem_erase.mpr ⟨?_, Finset.mem_range.mpr (h.order_lt w hw1)⟩
    intro hwv
    exact hn (hwv ▸ hw1)
  have := Finset.card_le_card hsub
  rw [List.toFinset_card_of_nodup h.order_nodup,
    Finset.card_erase_of_mem (Finset.mem_range.mpr hv), Finset.card_range] at this
  omega

theorem LoopInv.mem_order_of_full {g s : Planner} {rest : List Nat} (h : LoopInv g rest s)
    (hfull : s.schedule_order.length = g.total_topics) {v : Nat} (hv : v < g.total_topics) :
    v ∈ s.schedule_order := by
  by_contra hn
  have := h.order_length_lt hv hn
  omega

theorem run_loop_ready_nil (k : Nat) (s : Planner) (h : s.ready = []) : run_loop k s = s := by
  cases k with
  | zero => rfl
  | succ k =>
    rw [run_loop_succ, if_neg (by simp [h])]

theorem run_loop_add (a b : Nat) (s : Planner) :
    run_loop (a + b) s = run_loop b (run_loop a s) := by
  induction a generalizing s with
  | zero => simp [run_loop]
  | succ a ih =>
    rw [Nat.add_right_comm, run_loop_succ, run_loop_succ]
    split
    · exact ih _
    · rename_i hz
      have : s.ready = [] := by
        cases hs : s.ready with
        | nil => rfl
        | cons x l => simp [hs] at hz
      exact (run_loop_ready_nil b s this).symm

theorem LoopInv.run_terminates {g s : Planner}
    (hvalid : ∀ p < g.total_topics, ∀ d ∈ (g.Topics p).dependencies, d < g.total_topics)
    (k : Nat) (h : LoopInv g [] s) (hk : g.total_topics ≤ s.schedule_order.length + k) :
    (run_loop k s).ready = [] := by
  induction k generalizing s with
  | zero =>
    cases hs : s.ready with
    | nil => exact hs
    | cons x l =>
      have hx : x ∈ s.ready := by simp [hs]
      obtain ⟨hxN, hxn, _⟩ := (h.ready_iff x).mp hx
      have := h.order_length_lt hxN hxn
      omega
  | succ k ih =>
    rw [run_loop_succ]
    split
    · rename_i hpos
      have hne : s.ready ≠ [] := List.length_pos.mp hpos
      apply ih (h.iteration hvalid hne)
      rw [loop_iteration_order s hne, List.length_append]
      simp
      omega
    · rename_i hz
      cases hs : s.ready with
      | nil => rfl
      | cons x l => simp [hs] at hz

/-! ## Cycles -/

theorem exists_cycle_of_pred (g : Planner) (U : Nat → Prop) (v0 : Nat) (hv0 : U v0)
    (hU : ∀ v, U v → v < g.total_topics)
    (hpred : ∀ v, U v → ∃ p, Edge g p v ∧ U p) : HasCycle g := by
  by_contra hno
  let r : Fin g.total_topics → Fin g.total_topics → Prop :=
    fun a b => Relation.TransGen (Edge g) a.val b.val
  haveI : IsTrans _ r := ⟨fun _ _ _ hab hbc => Relation.TransGen.trans hab hbc⟩
  haveI : IsIrrefl _ r := ⟨fun a haa => hno ⟨a.val, haa⟩⟩
  have hwf : WellFounded r := Finite.wellFounded_of_trans_of_irrefl r
  obtain ⟨m, hm, hmin⟩ := hwf.has_min {a | U a.val} ⟨⟨v0, hU v0 hv0⟩, hv0⟩
  obtain ⟨p, hp, hpU⟩ := hpred m.val hm
  exact hmin ⟨p, hU p hpU⟩ hpU (Relation.TransGen.single hp)

theorem LoopInv.full_of_acyclic {g s : Planner} (h : LoopInv g [] s) (hr : s.ready = [])
    (hac : ¬ HasCycle g) : s.schedule_order.length = g.total_topics := by
  by_contra hlen
  have hle := h.order_length_le
  have hex : ∃ v, v < g.total_topics ∧ v ∉ s.schedule_order := by
    by_contra hall
    push_neg at hall
    have hsub : Finset.range g.total_topics ⊆ s.schedule_order.toFinset := by
      intro v hv
      exact List.mem_toFinset.mpr (hall v (Finset.mem_range.mp hv))
    have := Finset.card_le_card hsub
    rw [List.toFinset_card_of_nodup h.order_nodup, Finset.card_range] at this
    omega
  obtain ⟨v0, hv0, hv0n⟩ := hex
  apply hac
  refine exists_cycle_of_pred g (fun v => v < g.total_topics ∧ v ∉ s.schedule_order) v0
    ⟨hv0, hv0n⟩ (fun v hv => hv.1) ?_
  rintro v ⟨hv, hvn⟩
  have hnr : v ∉ s.ready := by simp [hr]
  have hpend : pending g s.schedule_order v ≠ 0 := by
    intro hz
    apply hnr
    refine (h.ready_iff v).mpr ⟨hv, hvn, ?_⟩
    rw [h.degree v hv, hz]
    simp
  rw [Ne, pending_eq_zero_iff] at hpend
  push_neg at hpend
  obtain ⟨p, hp, hpn⟩ := hpend
  exact ⟨p, hp, hp.1, hpn⟩

theorem LoopInv.before_of_edge {g s : Planner} {rest : List Nat} (h : LoopInv g rest s)
    {a b : Nat} (hab : Edge g a b) (j : Nat) (hj : s.schedule_order[j]? = some b) :
    ∃ i : Nat, i < j ∧ s.schedule_order[i]? = some a := by
  have hmem := h.topo j b hj a hab
  obtain ⟨i, hi, hget⟩ := List.mem_take_iff_getElem.mp hmem
  refine ⟨i, by omega, ?_⟩
  rw [← hget]
  exact List.getElem?_eq_getElem (by omega)

theorem LoopInv.before_of_transGen {g s : Planner} {rest : List Nat} (h : LoopInv g rest s)
    {a b : Nat} (hab : Relation.TransGen (Edge g) a b) :
    ∀ j : Nat, s.schedule_order[j]? = some b →
      ∃ i : Nat, i < j ∧ s.schedule_order[i]? = some a := by
  induction hab with
  | single hab => exact fun j hj => h.before_of_edge hab j hj
  | tail _ hcb ih =>
    intro j hj
    obtain ⟨i, hij, hi⟩ := h.before_of_edge hcb j hj
    obtain ⟨i2, hi2, hget⟩ := ih i hi
    exact ⟨i2, by omega, hget⟩

theorem LoopInv.not_full_of_cycle {g s : Planner} {rest : List Nat} (h : LoopInv g rest s)
    (hcyc : HasCycle g) : s.schedule_order.length < g.total_topics := by
  obtain ⟨v, hv⟩ := hcyc
  have hvN : v < g.total_topics := by
    obtain ⟨b, hvb, _⟩ := Relation.TransGen.head'_iff.mp hv
    exact hvb.1
  apply h.order_length_lt hvN
  intro hin
  obtain ⟨j, hjlt, hj⟩ := exists_getElem?_of_mem hin
  obtain ⟨i, hij, hi⟩ := h.before_of_transGen hv j hj
  have := List.getElem?_inj (by omega) h.order_nodup (hi.trans hj.symm)
  omega

/-! ## The outcome of the scheduler on consistent graph states -/

theorem generate_priority_order_outcome (s : Planner) (fuel : Nat) (hc : Consistent s)
    (hf : s.total_topics ≤ fuel) :
    LoopInv s [] (run_loop fuel (start_state s)) ∧
    (run_loop fuel (start_state s)).ready = [] ∧
    generate_priority_order fuel s =
      if (run_loop fuel (start_state s)).schedule_order.length ≠ s.total_topics then
        Outcome.circular (run_loop fuel (start_state s))
      else Outcome.returned (run_loop fuel (start_state s)) := by
  have hinv : LoopInv s [] (run_loop fuel (start_state s)) :=
    LoopInv.run hc.valid fuel (LoopInv.start hc)
  have hnil : (run_loop fuel (start_state s)).ready = [] := by
    apply LoopInv.run_terminates hc.valid fuel (LoopInv.start hc)
    omega
  refine ⟨hinv, hnil, ?_⟩
  unfold generate_priority_order
  dsimp only
  rw [if_neg (by simp [hnil]), hinv.total]

/-! ## Facts about the sample inputs -/

theorem acyclic_of_rank (s : Planner) (rank : Nat → Nat)
    (h : ∀ p < s.total_topics, ∀ d ∈ (s.Topics p).dependencies, rank p < rank d) :
    ¬ HasCycle s := by
  rintro ⟨v, hv⟩
  have key : ∀ a b, Relation.TransGen (Edge s) a b → rank a < rank b := by
    intro a b hab
    induction hab with
    | single hab => exact h a hab.1 _ hab.2
    | tail _ hcb ih => exact lt_trans ih (h _ hcb.1 _ hcb.2)
  exact lt_irrefl _ (key v v hv)

theorem chain_state_consistent : Consistent chain_state :=
  ⟨by decide, by decide, by decide⟩

theorem chain_state_acyclic : ¬ HasCycle chain_state :=
  acyclic_of_rank chain_state id (by decide)

theorem mutual_state_consistent : Consistent mutual_state :=
  ⟨by decide, by decide, by decide⟩

theorem mutual_state_cycle : HasCycle mutual_state := by
  have h01 : Edge mutual_state 0 1 := ⟨by decide, by decide⟩
  have h10 : Edge mutual_state 1 0 := ⟨by decide, by decide⟩
  exact ⟨0, Relation.TransGen.tail (Relation.TransGen.single h01) h10⟩

theorem chain_state_order :
    (run_loop 2 (start_state chain_state)).schedule_order = [0, 1] := by decide

theorem mutual_state_order :
    (run_loop 2 (start_state mutual_state)).schedule_order = [] := by decide

theorem plain_state_consistent : Consistent plain_state :=
  ⟨by decide, by decide, by decide⟩

theorem plain_state_order :
    (run_loop 2 (start_state plain_state)).schedule_order = [1, 0] := by decide

theorem tie_state_consistent : Consistent tie_state :=
  ⟨by decide, by decide, by decide⟩

/-! ## The bookkeeping invariant for arbitrary in-degree tables -/

theorem SafeInv.keep_release {g s : Planner} {v : Nat} (h : SafeInv g s)
    (hv : v < g.total_topics) : SafeInv g (release_dependent v s) := by
  have hmono : ∀ w, (release_dependent v s).in_degree w ≤ s.in_degree w := by
    intro w
    rw [release_dependent_in_degree]
    by_cases hwv : w = v
    · subst hwv
      rw [Function.update_same]
      omega
    · rw [Function.update_noteq hwv]
  have hnew : s.in_degree v - 1 = 0 → v ∉ s.ready ∧ v ∉ s.schedule_order := by
    intro hz
    constructor
    · intro hm
      have := h.ready_nonpos v hm
      omega
    · intro hm
      have := h.order_nonpos v hm
      omega
  refine ⟨?_, ?_, ?_, ?_, ?_, ?_, ?_, ?_, ?_⟩
  · rw [release_dependent_Topics]; exact h.topics
  · rw [release_dependent_total]; exact h.total
  · rw [release_dependent_ready]
    split
    · rename_i hz
      exact List.Nodup.append h.ready_nodup (List.nodup_singleton v)
        (by
          intro a ha hav
          rw [List.mem_singleton] at hav
          exact (hnew hz).1 (hav ▸ ha))
    · exact h.ready_nodup
  · rw [release_dependent_order]; exact h.order_nodup
  · intro w hw
    rw [release_dependent_order]
    rw [release_dependent_ready] at hw
    split at hw
    · rename_i hz
      rcases List.mem_append.mp hw with hw | hw
      · exact h.disjoint w hw
      · rw [List.mem_singleton] at hw
        rw [hw]
        exact (hnew hz).2
    · exact h.disjoint w hw
  · intro w hw
    rw [release_dependent_ready] at hw
    split at hw
    · rcases List.mem_append.mp hw with hw | hw
      · exact h.ready_lt w hw
      · rw [List.mem_singleton] at hw
        rw [hw]
        exact hv
    · exact h.ready_lt w hw
  · rw [release_dependent_order]; exact h.order_lt
  · intro w hw
    rw [release_dependent_ready] at hw
    split at hw
    · rename_i hz
      rcases List.mem_append.mp hw with hw | hw
      · exact le_trans (hmono w) (h.ready_nonpos w hw)
      · rw [List.mem_singleton] at hw
        rw [hw, release_dependent_in_degree, Function.update_same, hz]
    · exact le_trans (hmono w) (h.ready_nonpos w hw)
  · intro w hw
    rw [release_dependent_order] at hw
    exact le_trans (hmono w) (h.order_nonpos w hw)

theorem SafeInv.keep_process {g s : Planner} (l : List Nat) (hl : ∀ v, v ∈ l → v < g.total_topics)
    (h : SafeInv g s) : SafeInv g (process_neighbors l s) := by
  unfold process_neighbors
  induction l generalizing s with
  | nil => exact h
  | cons v l ih =>
    rw [List.foldl_cons]
    exact ih (fun w hw => hl w (List.mem_cons_of_mem _ hw))
      (h.keep_release (hl v (List.mem_cons_self _ _)))

theorem SafeInv.keep_extract {g s : Planner} (h : SafeInv g s) (hne : s.ready ≠ []) :
    SafeInv g
      { s with ready := s.ready.eraseIdx (find_best s.Topics s.ready).1
               schedule_order := s.schedule_order ++ [(find_best s.Topics s.ready).2] } := by
  have hget : s.ready[(find_best s.Topics s.ready).1]? = some (find_best s.Topics s.ready).2 :=
    (find_best_inv s.Topics s.ready hne).get
  generalize (find_best s.Topics s.ready).1 = k at hget
  generalize (find_best s.Topics s.ready).2 = u at hget
  have hmem : u ∈ s.ready := mem_of_getElem?_eq_some hget
  have hsub : ∀ w, w ∈ s.ready.eraseIdx k → w ∈ s.ready ∧ w ≠ u :=
    fun w hw => (mem_eraseIdx_of_nodup h.ready_nodup hget w).mp hw
  refine ⟨h.topics, h.total, ?_, ?_, ?_, ?_, ?_, ?_, ?_⟩
  · exact h.ready_nodup.sublist (List.eraseIdx_sublist _ _)
  · exact List.Nodup.append h.order_nodup (List.nodup_singleton u)
      (by
        intro a ha hau
        rw [List.mem_singleton] at hau
        exact h.disjoint u hmem (hau ▸ ha))
  · intro w hw hin
    dsimp only at hw hin
    rcases List.mem_append.mp hin with hin | hin
    · exact h.disjoint w (hsub w hw).1 hin
    · rw [List.mem_singleton] at hin
      exact (hsub w hw).2 hin
  · intro w hw
    exact h.ready_lt w (hsub w hw).1
  · intro w hw
    dsimp only at hw
    rcases List.mem_append.mp hw with hw | hw
    · exact h.order_lt w hw
    · rw [List.mem_singleton] at hw
      exact hw ▸ h.ready_lt u hmem
  · intro w hw
    exact h.ready_nonpos w (hsub w hw).1
  · intro w hw
    dsimp only at hw ⊢
    rcases List.mem_append.mp hw with hw | hw
    · exact h.order_nonpos w hw
    · rw [List.mem_singleton] at hw
      exact hw ▸ h.ready_nonpos u hmem

theorem inner_point_eq (s : Planner) (m : Nat) (h : s.ready ≠ []) :
    inner_point s m =
      process_neighbors ((s.Topics (find_best s.Topics s.ready).2).dependencies.take m)
        { s with ready := s.ready.eraseIdx (find_best s.Topics s.ready).1
                 schedule_order := s.schedule_order ++ [(find_best s.Topics s.ready).2] } := by
  unfold inner_point
  rw [get_highest_priority_topic_eq s h]

theorem inner_point_of_length_le (s : Planner) (m : Nat) (h : s.ready ≠ [])
    (hm : (s.Topics (find_best s.Topics s.ready).2).dependencies.length ≤ m) :
    inner_point s m = loop_iteration s := by
  rw [inner_point_eq s m h, loop_iteration_eq s h, List.take_of_length_le hm]

theorem SafeInv.keep_inner {g s : Planner}
    (hvalid : ∀ p < g.total_topics, ∀ d ∈ (g.Topics p).dependencies, d < g.total_topics)
    (h : SafeInv g s) (hne : s.ready ≠ []) (m : Nat) : SafeInv g (inner_point s m) := by
  rw [inner_point_eq s m hne]
  apply SafeInv.keep_process _ _ (h.keep_extract hne)
  intro v hv
  have hu : (find_best s.Topics s.ready).2 < g.total_topics :=
    h.ready_lt _ (mem_of_getElem?_eq_some (find_best_inv s.Topics s.ready hne).get)
  have hv2 := List.mem_of_mem_take hv
  rw [h.topics] at hv2 hu
  exact hvalid _ hu v hv2

theorem SafeInv.keep_iteration {g s : Planner}
    (hvalid : ∀ p < g.total_topics, ∀ d ∈ (g.Topics p).dependencies, d < g.total_topics)
    (h : SafeInv g s) (hne : s.ready ≠ []) : SafeInv g (loop_iteration s) := by
  rw [loop_iteration_eq s hne]
  apply SafeInv.keep_process _ _ (h.keep_extract hne)
  intro v hv
  have hu : (find_best s.Topics s.ready).2 < g.total_topics :=
    h.ready_lt _ (mem_of_getElem?_eq_some (find_best_inv s.Topics s.ready hne).get)
  rw [h.topics] at hv hu
  exact hvalid _ hu v hv

theorem start_point_eq (s : Planner) (i : Nat) :
    start_point s i = { s with
      schedule_order := []
      ready := (List.range i).filter (fun j => decide (s.in_degree j = 0)) } := by
  unfold start_point
  rw [collect_fold]
  simp

theorem start_state_eq_start_point (s : Planner) :
    start_state s = start_point s s.total_topics := by
  rw [start_state_eq, start_point_eq]

theorem SafeInv.at_start_point (g : Planner) (i : Nat) (hi : i ≤ g.total_topics) :
    SafeInv g (start_point g i) := by
  rw [start_point_eq]
  refine ⟨rfl, rfl, (List.nodup_range _).filter _, List.nodup_nil, ?_, ?_, ?_, ?_, ?_⟩
  · intro v _ hv
    cases hv
  · intro v hv
    have := List.mem_range.mp (List.mem_filter.mp hv).1
    omega
  · intro v hv
    cases hv
  · intro v hv
    have := (List.mem_filter.mp hv).2
    simp at this
    dsimp only
    omega
  · intro v hv
    cases hv

theorem SafeInv.keep_run {g s : Planner}
    (hvalid : ∀ p < g.total_topics, ∀ d ∈ (g.Topics p).dependencies, d < g.total_topics)
    (k : Nat) (h : SafeInv g s) : SafeInv g (run_loop k s) := by
  induction k generalizing s with
  | zero => exact h
  | succ k ih =>
    rw [run_loop_succ]
    split
    · rename_i hpos
      exact ih (h.keep_iteration hvalid (List.length_pos.mp hpos))
    · exact h

theorem SafeInv.length_le {g s : Planner} (h : SafeInv g s) :
    s.ready.length + s.schedule_order.length ≤ g.total_topics := by
  have hnd : (s.ready ++ s.schedule_order).Nodup :=
    List.Nodup.append h.ready_nodup h.order_nodup (fun a ha hb => h.disjoint a ha hb)
  have hsub : (s.ready ++ s.schedule_order).toFinset ⊆ Finset.range g.total_topics := by
    intro v hv
    rcases List.mem_append.mp (List.mem_toFinset.mp hv) with hv | hv
    · exact Finset.mem_range.mpr (h.ready_lt v hv)
    · exact Finset.mem_range.mpr (h.order_lt v hv)
  have := Finset.card_le_card hsub
  rwa [List.toFinset_card_of_nodup hnd, Finset.card_range, List.length_append] at this

theorem SafeInv.keep_run_terminates {g s : Planner}
    (hvalid : ∀ p < g.total_topics, ∀ d ∈ (g.Topics p).dependencies, d < g.total_topics)
    (k : Nat) (h : SafeInv g s) (hk : g.total_topics ≤ s.schedule_order.length + k) :
    (run_loop k s).ready = [] := by
  induction k generalizing s with
  | zero =>
    have := h.length_le
    apply List.eq_nil_of_length_eq_zero
    show s.ready.length = 0
    omega
  | succ k ih =>
    rw [run_loop_succ]
    split
    · rename_i hpos
      have hne : s.ready ≠ [] := List.length_pos.mp hpos
      apply ih (h.keep_iteration hvalid hne)
      rw [loop_iteration_order s hne, List.length_append]
      simp
      omega
    · rename_i hz
      apply List.eq_nil_of_length_eq_zero
      omega

theorem SafeInv.iterations_le {g s : Planner}
    (hvalid : ∀ p < g.total_topics, ∀ d ∈ (g.Topics p).dependencies, d < g.total_topics)
    (k : Nat) (h : SafeInv g s) :
    loop_iterations k s + s.schedule_order.length ≤ g.total_topics := by
  induction k generalizing s with
  | zero =>
    have := h.length_le
    simp only [loop_iterations]
    omega
  | succ k ih =>
    simp only [loop_iterations]
    split
    · rename_i hpos
      have hne : s.ready ≠ [] := List.length_pos.mp hpos
      have := ih (h.keep_iteration hvalid hne)
      rw [loop_iteration_order s hne, List.length_append] at this
      simp at this
      omega
    · have := h.length_le
      omega

/-! ## The scheduler: topological order, cycle detection, selection rule -/

/-- C1. On a consistent graph state whose edge relation has no cycle,
`generate_priority_order` (given at least `total_topics` loop iterations) returns
without the circular-dependency error, `schedule_order[0..order_count)` is a
permutation of `0 .. total_topics-1`, and for every recorded edge `(p, d)` the
prerequisite `p` occurs at a strictly smaller index than `d`. -/
theorem generate_priority_order_topological (s : Planner) (fuel : Nat)
    (hc : Consistent s) (hac : ¬ HasCycle s) (hf : s.total_topics ≤ fuel) :
    ∃ s1, generate_priority_order fuel s = Outcome.returned s1 ∧
      s1.schedule_order.Perm (List.range s.total_topics) ∧
      ∀ p d, Edge s p d → Before s1.schedule_order p d := by
  obtain ⟨hinv, hnil, hout⟩ := generate_priority_order_outcome s fuel hc hf
  have hfull := hinv.full_of_acyclic hnil hac
  refine ⟨run_loop fuel (start_state s), ?_, ?_, ?_⟩
  · rw [hout, if_neg (by simp [hfull])]
  · apply (List.perm_ext_iff_of_nodup hinv.order_nodup (List.nodup_range _)).mpr
    intro a
    rw [List.mem_range]
    exact ⟨hinv.order_lt a, fun ha => hinv.mem_order_of_full hfull ha⟩
  · intro p d hpd
    have hd : d ∈ (run_loop fuel (start_state s)).schedule_order :=
      hinv.mem_order_of_full hfull (hc.valid p hpd.1 d hpd.2)
    obtain ⟨j, _, hj⟩ := exists_getElem?_of_mem hd
    obtain ⟨i, hij, hi⟩ := hinv.before_of_edge hpd j hj
    exact ⟨i, j, hij, hi, hj⟩

theorem generate_priority_order_topological_witness :
    Consistent chain_state ∧ ¬ HasCycle chain_state ∧ chain_state.total_topics ≤ 2 ∧
    ∃ s1, generate_priority_order 2 chain_state = Outcome.returned s1 ∧
      s1.schedule_order.Perm (List.range chain_state.total_topics) ∧
      ∀ p d, Edge chain_state p d → Before s1.schedule_order p d :=
  ⟨chain_state_consistent, chain_state_acyclic, by decide,
    generate_priority_order_topological chain_state 2 chain_state_consistent
      chain_state_acyclic (by decide)⟩

/-- C2. On a consistent graph state, `generate_priority_order` (given at least
`total_topics` loop iterations) ends in the circular-dependency failure if and
only if the recorded edge relation contains a cycle; whenever it fails,
`order_count` is strictly less than `total_topics`; and the main loop always
runs to completion. -/
theorem generate_priority_order_cycle_iff (s : Planner) (fuel : Nat)
    (hc : Consistent s) (hf : s.total_topics ≤ fuel) :
    ((∃ s1, generate_priority_order fuel s = Outcome.circular s1) ↔ HasCycle s) ∧
    (∀ s1, generate_priority_order fuel s = Outcome.circular s1 →
      s1.order_count < s1.total_topics) ∧
    (∀ s1, generate_priority_order fuel s ≠ Outcome.unfinished s1) := by
  obtain ⟨hinv, hnil, hout⟩ := generate_priority_order_outcome s fuel hc hf
  refine ⟨⟨?_, ?_⟩, ?_, ?_⟩
  · rintro ⟨s1, hs1⟩
    by_contra hac
    have hfull := hinv.full_of_acyclic hnil hac
    rw [hout, if_neg (by simp [hfull])] at hs1
    cases hs1
  · intro hcyc
    have hlt := hinv.not_full_of_cycle hcyc
    exact ⟨_, by rw [hout, if_pos (by omega)]⟩
  · intro s1 hs1
    rw [hout] at hs1
    split at hs1
    · rename_i hne
      cases hs1
      have hle := hinv.order_length_le
      unfold Planner.order_count
      rw [hinv.total]
      omega
    · cases hs1
  · intro s1 hs1
    rw [hout] at hs1
    split at hs1 <;> cases hs1

theorem generate_priority_order_cycle_iff_witness :
    Consistent mutual_state ∧ mutual_state.total_topics ≤ 2 ∧
    (((∃ s1, generate_priority_order 2 mutual_state = Outcome.circular s1) ↔
        HasCycle mutual_state) ∧
      (∀ s1, generate_priority_order 2 mutual_state = Outcome.circular s1 →
        s1.order_count < s1.total_topics) ∧
      (∀ s1, generate_priority_order 2 mutual_state ≠ Outcome.unfinished s1)) :=
  ⟨mutual_state_consistent, by decide,
    generate_priority_order_cycle_iff mutual_state 2 mutual_state_consistent (by decide)⟩

/-- C3. On a non-empty ready list `get_highest_priority_topic` returns `ready[k]`
where the priority of `ready[k]` is the maximum over all entries of the list and
every entry at an index smaller than `k` has a strictly smaller priority: `k` is
the smallest index holding the maximum priority. -/
theorem get_highest_priority_topic_leftmost_max (s : Planner) (h : s.ready ≠ []) :
    ∃ (k u : Nat), (get_highest_priority_topic s).1 = some u ∧ s.ready[k]? = some u ∧
      (∀ y, y ∈ s.ready → (s.Topics y).priority ≤ (s.Topics u).priority) ∧
      (∀ (j y : Nat), j < k → s.ready[j]? = some y →
        (s.Topics y).priority < (s.Topics u).priority) := by
  have hb := find_best_inv s.Topics s.ready h
  refine ⟨(find_best s.Topics s.ready).1, (find_best s.Topics s.ready).2, ?_, hb.get, ?_,
    hb.first⟩
  · rw [get_highest_priority_topic_eq s h]
  · intro y hy
    obtain ⟨j, hj, hjy⟩ := exists_getElem?_of_mem hy
    exact hb.max j y (by omega) hjy

theorem get_highest_priority_topic_leftmost_max_witness :
    ({ plain_state with ready := [0, 1] } : Planner).ready ≠ [] ∧
    ∃ (k u : Nat), (get_highest_priority_topic { plain_state with ready := [0, 1] }).1 = some u ∧
      ({ plain_state with ready := [0, 1] } : Planner).ready[k]? = some u ∧
      (∀ y, y ∈ ({ plain_state with ready := [0, 1] } : Planner).ready →
        (plain_state.Topics y).priority ≤ (plain_state.Topics u).priority) ∧
      (∀ (j y : Nat), j < k → ({ plain_state with ready := [0, 1] } : Planner).ready[j]? = some y →
        (plain_state.Topics y).priority < (plain_state.Topics u).priority) :=
  ⟨by decide, get_highest_priority_topic_leftmost_max { plain_state with ready := [0, 1] }
    (by decide)⟩

/-- C4. On a consistent graph state the order produced by
`generate_priority_order` is locally greedy: for indices `i < j` of
`schedule_order`, if every prerequisite of `schedule_order[j]` occurs at an index
smaller than `i`, then the priority of `schedule_order[i]` is at least the
priority of `schedule_order[j]`.  This holds for the order left by a successful
run and for the order left when the cycle failure is reported. -/
theorem generate_priority_order_locally_greedy (s : Planner) (fuel : Nat)
    (hc : Consistent s) (hf : s.total_topics ≤ fuel) :
    ∃ s1, (generate_priority_order fuel s = Outcome.returned s1 ∨
        generate_priority_order fuel s = Outcome.circular s1) ∧
      ∀ (i j : Nat) (x y : Nat), i < j → s1.schedule_order[i]? = some x →
        s1.schedule_order[j]? = some y →
        (∀ p, Edge s p y → ∃ k : Nat, k < i ∧ s1.schedule_order[k]? = some p) →
        (s.Topics y).priority ≤ (s.Topics x).priority := by
  obtain ⟨hinv, hnil, hout⟩ := generate_priority_order_outcome s fuel hc hf
  refine ⟨run_loop fuel (start_state s), ?_, ?_⟩
  · rw [hout]
    split
    · exact Or.inr rfl
    · exact Or.inl rfl
  · intro i j x y hij hx hy hpre
    have hyN : y < s.total_topics := hinv.order_lt y (mem_of_getElem?_eq_some hy)
    apply hinv.greedy i x hx y hyN
    · intro hmem
      obtain ⟨k, hk, hget⟩ := List.mem_take_iff_getElem.mp hmem
      have hk2 : (run_loop fuel (start_state s)).schedule_order[k]? = some y := by
        rw [← hget]
        exact List.getElem?_eq_getElem (by omega)
      have := List.getElem?_inj (by omega) hinv.order_nodup (hk2.trans hy.symm)
      omega
    · intro p hp
      obtain ⟨k, hk, hget⟩ := hpre p hp
      obtain ⟨hlt, hval⟩ := List.getElem?_eq_some.mp hget
      exact List.mem_take_iff_getElem.mpr ⟨k, by omega, hval⟩

theorem generate_priority_order_locally_greedy_witness :
    Consistent plain_state ∧ plain_state.total_topics ≤ 2 ∧
    ∃ s1, (generate_priority_order 2 plain_state = Outcome.returned s1 ∨
        generate_priority_order 2 plain_state = Outcome.circular s1) ∧
      ∀ (i j : Nat) (x y : Nat), i < j → s1.schedule_order[i]? = some x →
        s1.schedule_order[j]? = some y →
        (∀ p, Edge plain_state p y → ∃ k : Nat, k < i ∧ s1.schedule_order[k]? = some p) →
        (plain_state.Topics y).priority ≤ (plain_state.Topics x).priority :=
  ⟨plain_state_consistent, by decide,
    generate_priority_order_locally_greedy plain_state 2 plain_state_consistent (by decide)⟩

/-! ## Tie-break between ready topics -/

theorem Before.append {l : List Nat} {x y : Nat} (h : Before l x y) (l2 : List Nat) :
    Before (l ++ l2) x y := by
  obtain ⟨i, j, hij, hi, hj⟩ := h
  have hil := (List.getElem?_eq_some.mp hi).1
  have hjl := (List.getElem?_eq_some.mp hj).1
  exact ⟨i, j, hij, by rw [List.getElem?_append_left hil]; exact hi,
    by rw [List.getElem?_append_left hjl]; exact hj⟩

theorem Before.snoc_of_mem {l : List Nat} {x : Nat} (h : x ∈ l) (y : Nat) :
    Before (l ++ [y]) x y := by
  obtain ⟨i, hil, hi⟩ := exists_getElem?_of_mem h
  refine ⟨i, l.length, hil, ?_, ?_⟩
  · rw [List.getElem?_append_left hil]; exact hi
  · rw [List.getElem?_append_right (le_refl _)]; simp

theorem Before.eraseIdx {l : List Nat} {k u x y : Nat} (h : Before l x y)
    (hk : l[k]? = some u) (hx : u ≠ x) (hy : u ≠ y) : Before (l.eraseIdx k) x y := by
  obtain ⟨i, j, hij, hi, hj⟩ := h
  have hik : i ≠ k := by
    intro e
    rw [e, hk] at hi
    exact hx (Option.some.inj hi)
  have hjk : j ≠ k := by
    intro e
    rw [e, hk] at hj
    exact hy (Option.some.inj hj)
  rcases Nat.lt_or_ge i k with h1 | h1
  · rcases Nat.lt_or_ge j k with h2 | h2
    · refine ⟨i, j, hij, ?_, ?_⟩
      · rw [List.getElem?_eraseIdx, if_pos h1]; exact hi
      · rw [List.getElem?_eraseIdx, if_pos h2]; exact hj
    · refine ⟨i, j - 1, by omega, ?_, ?_⟩
      · rw [List.getElem?_eraseIdx, if_pos h1]; exact hi
      · rw [List.getElem?_eraseIdx, if_neg (by omega)]
        have : j - 1 + 1 = j := by omega
        rw [this]; exact hj
  · refine ⟨i - 1, j - 1, by omega, ?_, ?_⟩
    · rw [List.getElem?_eraseIdx, if_neg (by omega)]
      have : i - 1 + 1 = i := by omega
      rw [this]; exact hi
    · rw [List.getElem?_eraseIdx, if_neg (by omega)]
      have : j - 1 + 1 = j := by omega
      rw [this]; exact hj

theorem TieStage.after_iteration {g s : Planner} {x y : Nat} (h : LoopInv g [] s)
    (hne : s.ready ≠ []) (hp : (g.Topics y).priority ≤ (g.Topics x).priority)
    (hst : TieStage x y s) : TieStage x y (loop_iteration s) := by
  have hb := find_best_inv s.Topics s.ready hne
  obtain ⟨added, hready⟩ := loop_iteration_ready s hne
  have horder := loop_iteration_order s hne
  generalize find_best s.Topics s.ready = best at hb hready horder
  obtain ⟨k, u⟩ := best
  have hget : s.ready[k]? = some u := hb.get
  dsimp only at hready horder
  unfold TieStage
  rw [hready, horder]
  rcases hst with hA | ⟨hx, hy⟩ | hC
  · obtain ⟨i, j, hij, hi, hj⟩ := hA
    have hil := (List.getElem?_eq_some.mp hi).1
    have hxy : x ≠ y := by
      intro e
      have := List.getElem?_inj hil h.ready_nodup (hi.trans (e ▸ hj.symm))
      omega
    have huy : u ≠ y := by
      intro e
      have hkl := (List.getElem?_eq_some.mp hget).1
      have hkj : k = j := List.getElem?_inj hkl h.ready_nodup (hget.trans (e ▸ hj.symm))
      have hlt := hb.first i x (by dsimp only; omega) hi
      dsimp only at hlt
      rw [h.topics, e] at hlt
      exact absurd hlt (not_lt.mpr hp)
    by_cases hux : u = x
    · right; left
      refine ⟨by rw [hux]; simp, List.mem_append_left _ ?_⟩
      exact (mem_eraseIdx_of_nodup h.ready_nodup hget y).mpr
        ⟨mem_of_getElem?_eq_some hj, fun e => huy e.symm⟩
    · left
      exact (Before.eraseIdx ⟨i, j, hij, hi, hj⟩ hget hux huy).append _
  · by_cases huy : u = y
    · right; right
      rw [huy]
      exact Before.snoc_of_mem hx y
    · right; left
      refine ⟨List.mem_append_left _ hx, List.mem_append_left _ ?_⟩
      exact (mem_eraseIdx_of_nodup h.ready_nodup hget y).mpr ⟨hy, fun e => huy e.symm⟩
  · right; right
    exact hC.append _

theorem TieStage.after_run {g s : Planner} {x y : Nat}
    (hvalid : ∀ p < g.total_topics, ∀ d ∈ (g.Topics p).dependencies, d < g.total_topics)
    (hp : (g.Topics y).priority ≤ (g.Topics x).priority) (m : Nat)
    (h : LoopInv g [] s) (hst : TieStage x y s) : TieStage x y (run_loop m s) := by
  induction m generalizing s with
  | zero => exact hst
  | succ m ih =>
    rw [run_loop_succ]
    split
    · rename_i hpos
      have hne : s.ready ≠ [] := List.length_pos.mp hpos
      exact ih (h.iteration hvalid hne) (hst.after_iteration h hne hp)
    · exact hst

theorem TieStage.done {s : Planner} {x y : Nat} (hst : TieStage x y s) (hr : s.ready = []) :
    Before s.schedule_order x y := by
  rcases hst with hA | ⟨_, hy⟩ | hC
  · obtain ⟨i, j, _, hi, _⟩ := hA
    rw [hr] at hi
    simp at hi
  · rw [hr] at hy
    cases hy
  · exact hC

/-- C5. In a run of `generate_priority_order` from a consistent graph state, let
`x` and `y` both be in the ready list at the start of some loop iteration (the
state reached after `k` iterations), both with the maximum priority among the
topics then in the ready list, and `x` at a smaller position than `y` (the ready
list keeps its entries in insertion order, so `x` was inserted first).  Then `x`
occurs at a smaller index than `y` in the final `schedule_order`. -/
theorem generate_priority_order_tie_break (s : Planner) (fuel k : Nat) (x y : Nat)
    (hc : Consistent s) (hf : s.total_topics ≤ fuel)
    (hxy : Before (run_loop k (start_state s)).ready x y)
    (hx : ∀ z, z ∈ (run_loop k (start_state s)).ready →
      (s.Topics z).priority ≤ (s.Topics x).priority)
    (_hy : ∀ z, z ∈ (run_loop k (start_state s)).ready →
      (s.Topics z).priority ≤ (s.Topics y).priority) :
    ∃ s1, (generate_priority_order fuel s = Outcome.returned s1 ∨
        generate_priority_order fuel s = Outcome.circular s1) ∧
      Before s1.schedule_order x y := by
  obtain ⟨hinv, hnil, hout⟩ := generate_priority_order_outcome s fuel hc hf
  refine ⟨run_loop fuel (start_state s), ?_, ?_⟩
  · rw [hout]
    split
    · exact Or.inr rfl
    · exact Or.inl rfl
  · have hyin : y ∈ (run_loop k (start_state s)).ready := by
      obtain ⟨_, j, _, _, hj⟩ := hxy
      exact mem_of_getElem?_eq_some hj
    have hp := hx y hyin
    have hk : LoopInv s [] (run_loop k (start_state s)) :=
      LoopInv.run hc.valid k (LoopInv.start hc)
    have hstage : TieStage x y (run_loop (k + fuel) (start_state s)) := by
      rw [run_loop_add]
      exact TieStage.after_run hc.valid hp fuel hk (Or.inl hxy)
    rw [Nat.add_comm, run_loop_add, run_loop_ready_nil k _ hnil] at hstage
    exact hstage.done hnil

theorem generate_priority_order_tie_break_witness :
    Consistent tie_state ∧ tie_state.total_topics ≤ 2 ∧
    Before (run_loop 0 (start_state tie_state)).ready 0 1 ∧
    (∀ z, z ∈ (run_loop 0 (start_state tie_state)).ready →
      (tie_state.Topics z).priority ≤ (tie_state.Topics 0).priority) ∧
    (∀ z, z ∈ (run_loop 0 (start_state tie_state)).ready →
      (tie_state.Topics z).priority ≤ (tie_state.Topics 1).priority) ∧
    ∃ s1, (generate_priority_order 2 tie_state = Outcome.returned s1 ∨
        generate_priority_order 2 tie_state = Outcome.circular s1) ∧
      Before s1.schedule_order 0 1 :=
  ⟨tie_state_consistent, by decide, ⟨0, 1, by decide, by decide, by decide⟩, by decide,
    by decide,
    generate_priority_order_tie_break tie_state 2 0 0 1 tie_state_consistent (by decide)
      ⟨0, 1, by decide, by decide, by decide⟩ (by decide) (by decide)⟩

/-! ## The day packer -/

theorem print_schedule_eq (daily_limit : Int) (s : Planner) (h : s.schedule_order ≠ []) :
    print_schedule daily_limit s =
      (s.schedule_order.foldl (place_topic s.Topics daily_limit)
        { current_day := 1, day_time_used := 0, printed := [], block := [] }).blocks := by
  unfold print_schedule
  rw [if_neg (by simpa using h)]
  rfl

theorem place_topic_blocks_flatten (Topics : Nat → Topic) (daily_limit : Int) (st : PackState)
    (t : Nat) :
    ((place_topic Topics daily_limit st t).blocks.map Prod.snd).flatten =
      (st.blocks.map Prod.snd).flatten ++ [t] := by
  unfold place_topic PackState.blocks
  dsimp only
  split <;> simp

theorem pack_fold_flatten (Topics : Nat → Topic) (daily_limit : Int) (l : List Nat)
    (st : PackState) :
    (((l.foldl (place_topic Topics daily_limit) st).blocks).map Prod.snd).flatten =
      (st.blocks.map Prod.snd).flatten ++ l := by
  induction l generalizing st with
  | nil => simp
  | cons t l ih =>
    rw [List.foldl_cons, ih, place_topic_blocks_flatten]
    simp

theorem mem_order_of_mem_day (daily_limit : Int) (s : Planner) (day : Int × List Nat)
    (hday : day ∈ print_schedule daily_limit s) (t : Nat) (ht : t ∈ day.2) :
    t ∈ s.schedule_order := by
  by_cases h : s.schedule_order = []
  · unfold print_schedule at hday
    rw [if_pos (by simp [h])] at hday
    cases hday
  · rw [print_schedule_eq daily_limit s h] at hday
    have hmem : t ∈ (((s.schedule_order.foldl (place_topic s.Topics daily_limit)
        { current_day := 1, day_time_used := 0, printed := [], block := [] }).blocks).map
          Prod.snd).flatten :=
      List.mem_flatten.mpr ⟨day.2, List.mem_map.mpr ⟨day, hday, rfl⟩, ht⟩
    rw [pack_fold_flatten] at hmem
    simpa [PackState.blocks] using hmem

theorem wrap32_eq (x : Int) (h1 : INT_MIN ≤ x) (h2 : x ≤ INT_MAX) : wrap32 x = x := by
  unfold INT_MIN at h1
  unfold INT_MAX at h2
  unfold wrap32
  omega

theorem wrap32_range (x : Int) : INT_MIN ≤ wrap32 x ∧ wrap32 x ≤ INT_MAX := by
  unfold INT_MIN INT_MAX wrap32
  omega

theorem wrap32_le (x : Int) (h1 : INT_MIN ≤ x) : wrap32 x ≤ x := by
  unfold INT_MIN at h1
  unfold wrap32
  omega

theorem sums_fit_cons (Topics : Nat → Topic) (daily_limit : Int) (st : PackState) (t : Nat)
    (rest : List Nat) (h : sums_fit Topics daily_limit st (t :: rest) = true) :
    (INT_MIN ≤ (Topics t).duration ∧ (Topics t).duration ≤ INT_MAX ∧
      INT_MIN ≤ st.day_time_used + (Topics t).duration ∧
      st.day_time_used + (Topics t).duration ≤ INT_MAX) ∧
    sums_fit Topics daily_limit (place_topic Topics daily_limit st t) rest = true := by
  simp only [sums_fit, Bool.and_eq_true, decide_eq_true_eq] at h
  exact h

/-- When the sums stay in the range of `int`, the loop body computes with the exact
sums. -/
theorem place_topic_exact (Topics : Nat → Topic) (daily_limit : Int) (st : PackState)
    (t : Nat) (hd1 : INT_MIN ≤ (Topics t).duration) (hd2 : (Topics t).duration ≤ INT_MAX)
    (hs1 : INT_MIN ≤ st.day_time_used + (Topics t).duration)
    (hs2 : st.day_time_used + (Topics t).duration ≤ INT_MAX) :
    place_topic Topics daily_limit st t =
      if st.day_time_used + (Topics t).duration ≤ daily_limit then
        { st with block := st.block ++ [t]
                  day_time_used := st.day_time_used + (Topics t).duration }
      else
        { current_day := st.current_day + 1
          day_time_used := (Topics t).duration
          printed := st.printed ++ [(st.current_day, st.block)]
          block := [t] } := by
  unfold place_topic
  dsimp only
  rw [wrap32_eq _ hs1 hs2, wrap32_eq (0 + (Topics t).duration) (by omega) (by omega),
    Int.zero_add]

/-- A condition on the input under which no sum of the packing loop leaves the range
of `int`: positive durations, a non-negative capacity, and the capacity plus any
duration as well as any two durations together at most `INT_MAX`. -/
theorem sums_fit_of_bounds (Topics : Nat → Topic) (daily_limit : Int) (all l : List Nat)
    (st : PackState) (hsub : ∀ t, t ∈ l → t ∈ all) (hL : 0 ≤ daily_limit)
    (hpos : ∀ t, t ∈ all → 0 < (Topics t).duration)
    (hcap : ∀ t, t ∈ all → daily_limit + (Topics t).duration ≤ INT_MAX)
    (hpair : ∀ t, t ∈ all → ∀ u, u ∈ all →
      (Topics t).duration + (Topics u).duration ≤ INT_MAX)
    (h0 : 0 ≤ st.day_time_used)
    (hst : st.day_time_used ≤ daily_limit ∨
      ∃ t0, t0 ∈ all ∧ st.day_time_used = (Topics t0).duration) :
    sums_fit Topics daily_limit st l = true := by
  induction l generalizing st with
  | nil => rfl
  | cons t l ih =>
    have ht : t ∈ all := hsub t (List.mem_cons_self _ _)
    have hp := hpos t ht
    have hc := hcap t ht
    have hd1 : INT_MIN ≤ (Topics t).duration := by unfold INT_MIN; omega
    have hd2 : (Topics t).duration ≤ INT_MAX := by omega
    have hs1 : INT_MIN ≤ st.day_time_used + (Topics t).duration := by unfold INT_MIN; omega
    have hs2 : st.day_time_used + (Topics t).duration ≤ INT_MAX := by
      rcases hst with hle | ⟨t0, ht0, heq⟩
      · omega
      · rw [heq]
        exact hpair t0 ht0 t ht
    simp only [sums_fit, Bool.and_eq_true, decide_eq_true_eq]
    refine ⟨⟨hd1, hd2, hs1, hs2⟩, ?_⟩
    apply ih _ (fun w hw => hsub w (List.mem_cons_of_mem _ hw))
    · rw [place_topic_exact Topics daily_limit st t hd1 hd2 hs1 hs2]
      split
      · dsimp only
        omega
      · dsimp only
        omega
    · rw [place_topic_exact Topics daily_limit st t hd1 hd2 hs1 hs2]
      split
      · rename_i hle
        exact Or.inl hle
      · exact Or.inr ⟨t, ht, rfl⟩

theorem no_overflow_of_bounds (daily_limit : Int) (s : Planner) (hL : 0 ≤ daily_limit)
    (hpos : ∀ t, t ∈ s.schedule_order → 0 < (s.Topics t).duration)
    (hcap : ∀ t, t ∈ s.schedule_order → daily_limit + (s.Topics t).duration ≤ INT_MAX)
    (hpair : ∀ t, t ∈ s.schedule_order → ∀ u, u ∈ s.schedule_order →
      (s.Topics t).duration + (s.Topics u).duration ≤ INT_MAX) :
    no_overflow daily_limit s = true := by
  unfold no_overflow
  exact sums_fit_of_bounds s.Topics daily_limit s.schedule_order s.schedule_order _
    (fun _ h => h) hL hpos hcap hpair (le_refl _) (Or.inl hL)

/-- The invariant of the packing loop while the sums stay in the range of `int`:
every finished block and the current block fit or hold a single oversized
topic, and `day_time_used` is the total duration of the current block. -/
theorem pack_fold_fits (Topics : Nat → Topic) (daily_limit : Int) (l : List Nat)
    (st : PackState)
    (hfit : sums_fit Topics daily_limit st l = true)
    (hprinted : ∀ day ∈ st.printed, FitsOrAlone Topics daily_limit day.2)
    (hblock : FitsOrAlone Topics daily_limit st.block)
    (hused : st.day_time_used = total_duration Topics st.block) :
    ∀ day ∈ (l.foldl (place_topic Topics daily_limit) st).blocks,
      FitsOrAlone Topics daily_limit day.2 := by
  induction l generalizing st with
  | nil =>
    intro day hday
    rw [List.foldl_nil, PackState.blocks, List.mem_append, List.mem_singleton] at hday
    rcases hday with hday | hday
    · exact hprinted day hday
    · rw [hday]; exact hblock
  | cons t l ih =>
    obtain ⟨⟨hd1, hd2, hs1, hs2⟩, hrest⟩ := sums_fit_cons Topics daily_limit st t l hfit
    have hstep := place_topic_exact Topics daily_limit st t hd1 hd2 hs1 hs2
    rw [List.foldl_cons]
    apply ih _ hrest
    · rw [hstep]
      split
      · exact hprinted
      · intro day hday
        rw [List.mem_append, List.mem_singleton] at hday
        rcases hday with hday | hday
        · exact hprinted day hday
        · rw [hday]; exact hblock
    · rw [hstep]
      split
      · rename_i hle
        left
        dsimp only
        unfold total_duration at hused ⊢
        rw [List.map_append, List.sum_append, ← hused]
        simpa using hle
      · dsimp only
        by_cases hbig : daily_limit < (Topics t).duration
        · exact Or.inr ⟨t, rfl, hbig⟩
        · left
          unfold total_duration
          simpa using hbig
    · rw [hstep]
      split
      · dsimp only
        unfold total_duration at hused ⊢
        rw [List.map_append, List.sum_append, ← hused]
        simp
      · dsimp only
        unfold total_duration
        simp

theorem le_total_duration (Topics : Nat → Topic) (l : List Nat)
    (hpos : ∀ t ∈ l, 0 < (Topics t).duration) (t : Nat) (ht : t ∈ l) :
    (Topics t).duration ≤ total_duration Topics l := by
  induction l with
  | nil => cases ht
  | cons a l ih =>
    have hnn : 0 ≤ total_duration Topics l := by
      unfold total_duration
      apply List.sum_nonneg
      intro x hx
      obtain ⟨b, hb, rfl⟩ := List.mem_map.mp hx
      exact le_of_lt (hpos b (List.mem_cons_of_mem _ hb))
    have hcons : total_duration Topics (a :: l) = (Topics a).duration + total_duration Topics l := by
      simp [total_duration]
    rw [hcons]
    rcases List.mem_cons.mp ht with h | h
    · rw [h]; omega
    · have := ih (fun b hb => hpos b (List.mem_cons_of_mem _ hb)) h
      have := hpos a (List.mem_cons_self _ _)
      omega

/-- C6 (the claim as stated fails). Topics of 2147483647 and 1 hours with a daily
capacity of 10, all positive: the `int` sum `2147483647 + 1` wraps to a negative
value, so the second topic is listed on the day of the first; that day holds two
topics and its total duration exceeds the capacity. -/
theorem print_schedule_capacity_overflow :
    (run_loop 2 (start_state { huge_state with schedule_order := [] })).schedule_order =
      huge_state.schedule_order ∧
    (0 : Int) < 10 ∧
    (∀ t ∈ huge_state.schedule_order, 0 < (huge_state.Topics t).duration) ∧
    print_schedule 10 huge_state = [(1, []), (2, [0, 1])] ∧
    ¬ (∀ day ∈ print_schedule 10 huge_state,
      total_duration huge_state.Topics day.2 ≤ 10 ∨
        ∃ t, day.2 = [t] ∧ 10 < (huge_state.Topics t).duration) := by
  refine ⟨by decide, by decide, by decide, by decide, ?_⟩
  intro h
  rcases h (2, [0, 1]) (by decide) with hle | ⟨t, ht, _⟩
  · exact absurd hle (by decide)
  · cases ht

/-- C6 (amended). For a schedule order of topics with positive durations and a
positive daily capacity, in a run of `print_schedule` in which no `int` sum
`day_time_used + dur` leaves the range of `int`: every day printed has a total
duration of at most the capacity or consists of exactly one topic whose own
duration exceeds the capacity; hence a topic longer than the capacity is the
only topic of its day. -/
theorem print_schedule_capacity (s : Planner) (daily_limit : Int) (hL : 0 < daily_limit)
    (hdur : ∀ t ∈ s.schedule_order, 0 < (s.Topics t).duration)
    (hfit : no_overflow daily_limit s = true) :
    (∀ day ∈ print_schedule daily_limit s,
      total_duration s.Topics day.2 ≤ daily_limit ∨
        ∃ t, day.2 = [t] ∧ daily_limit < (s.Topics t).duration) ∧
    (∀ day ∈ print_schedule daily_limit s, ∀ t ∈ day.2,
      daily_limit < (s.Topics t).duration → day.2 = [t]) := by
  have hfits : ∀ day ∈ print_schedule daily_limit s,
      FitsOrAlone s.Topics daily_limit day.2 := by
    by_cases h : s.schedule_order = []
    · intro day hday
      unfold print_schedule at hday
      rw [if_pos (by simp [h])] at hday
      cases hday
    · rw [print_schedule_eq daily_limit s h]
      apply pack_fold_fits
      · exact hfit
      · intro day hday
        cases hday
      · left
        simp [total_duration]
        exact le_of_lt hL
      · simp [total_duration]
  refine ⟨hfits, ?_⟩
  intro day hday t ht hbig
  have hsub : ∀ x ∈ day.2, x ∈ s.schedule_order :=
    mem_order_of_mem_day daily_limit s day hday
  rcases hfits day hday with hle | ⟨t1, ht1, _⟩
  · have := le_total_duration s.Topics day.2 (fun x hx => hdur x (hsub x hx)) t ht
    omega
  · rw [ht1] at ht ⊢
    rw [List.mem_singleton] at ht
    rw [ht]

theorem print_schedule_capacity_witness :
    (0 : Int) < 5 ∧
    (∀ t ∈ ({ plain_state with schedule_order := [1, 0] } : Planner).schedule_order,
      0 < (plain_state.Topics t).duration) ∧
    no_overflow 5 { plain_state with schedule_order := [1, 0] } = true ∧
    ((∀ day ∈ print_schedule 5 { plain_state with schedule_order := [1, 0] },
      total_duration plain_state.Topics day.2 ≤ 5 ∨
        ∃ t, day.2 = [t] ∧ 5 < (plain_state.Topics t).duration) ∧
    (∀ day ∈ print_schedule 5 { plain_state with schedule_order := [1, 0] }, ∀ t ∈ day.2,
      5 < (plain_state.Topics t).duration → day.2 = [t])) :=
  ⟨by decide, by decide, by decide,
    print_schedule_capacity { plain_state with schedule_order := [1, 0] } 5 (by decide)
      (by decide) (by decide)⟩

/-- C7. For every schedule order and every daily capacity, concatenating the topic
lists of the days printed by `print_schedule`, in day order, gives exactly
`schedule_order[0..order_count)`. -/
theorem print_schedule_concat (daily_limit : Int) (s : Planner) :
    ((print_schedule daily_limit s).map Prod.snd).flatten = s.schedule_order := by
  by_cases h : s.schedule_order = []
  · unfold print_schedule
    rw [if_pos (by simp [h]), h]
    rfl
  · rw [print_schedule_eq daily_limit s h, pack_fold_flatten]
    simp [PackState.blocks]

/-- C8 (evaluation of the code at the failing input). A single topic of 8 hours with
a daily capacity of 5: the scheduler yields the order `[A]`, and `print_schedule`
prints the header of Day 1 with no topic under it and then Day 2 holding `A`. -/
theorem print_schedule_oversized_first :
    (run_loop 1 (start_state oversized_state)).schedule_order = [0] ∧
    print_schedule 5 (run_loop 1 (start_state oversized_state)) = [(1, []), (2, [0])] := by
  decide

/-! ## Registering dependencies -/

theorem add_dependency_dependencies (u v : Nat) (s : Planner) :
    ((add_dependency u v s).Topics u).dependencies = v :: (s.Topics u).dependencies := by
  unfold add_dependency
  dsimp only
  rw [Function.update_same]

/-- C9 (the claim as stated fails). Registering `(0, 1)` and then `(0, 2)` leaves
the dependents list of topic 0 as `2, 1` when walked from its head, not `1, 2`;
after topic 0 is scheduled the ready list holds `2` before `1`. -/
theorem add_dependency_not_registration_order :
    ((add_dependency 0 2 (add_dependency 0 1 fan_base)).Topics 0).dependencies ≠ [1, 2] ∧
    ((add_dependency 0 2 (add_dependency 0 1 fan_base)).Topics 0).dependencies = [2, 1] ∧
    (run_loop 1 (start_state fan_state)).schedule_order = [0] ∧
    (run_loop 1 (start_state fan_state)).ready = [2, 1] := by
  decide

/-- What the inner loop of `generate_priority_order` adds to the ready list while it
walks the list `l`: the released topics come in the order of the walk, and when
no id occurs twice in `l` they are exactly the entries whose counter was 1. -/
theorem process_neighbors_released (l : List Nat) (s : Planner) :
    ∃ added, (process_neighbors l s).ready = s.ready ++ added ∧ added.Sublist l ∧
      (l.Nodup → added = l.filter (fun v => decide (s.in_degree v = 1))) := by
  unfold process_neighbors
  induction l generalizing s with
  | nil => exact ⟨[], by simp, List.Sublist.refl _, fun _ => rfl⟩
  | cons v l ih =>
    obtain ⟨added, h1, h2, h3⟩ := ih (release_dependent v s)
    have hfilter : (v :: l).Nodup →
        added = l.filter (fun w => decide (s.in_degree w = 1)) := by
      intro hnd
      rw [h3 (List.nodup_cons.mp hnd).2]
      apply List.filter_congr
      intro w hw
      have hwv : w ≠ v := fun e => (List.nodup_cons.mp hnd).1 (e ▸ hw)
      rw [release_dependent_in_degree, Function.update_noteq hwv]
    rw [List.foldl_cons, h1, release_dependent_ready]
    by_cases hz : s.in_degree v - 1 = 0
    · rw [if_pos hz]
      refine ⟨v :: added, by simp, h2.cons₂ v, ?_⟩
      intro hnd
      have hv1 : s.in_degree v = 1 := by omega
      rw [List.filter_cons_of_pos (by simpa using hv1), hfilter hnd]
    · rw [if_neg hz]
      refine ⟨added, rfl, h2.cons v, ?_⟩
      intro hnd
      have hv1 : ¬ s.in_degree v = 1 := by omega
      rw [List.filter_cons_of_neg (by simpa using hv1), hfilter hnd]

/-- C9 (amended). `add_dependency(p, d)` puts `d` at the head of the dependents
list of `p`: after the registrations `(p, d1), ..., (p, dk)` made in that order,
walking `Topics[p].dependencies` from its head yields `dk, ..., d1` (the reverse
of the registration order) followed by the entries the list held before.  So in
the iteration of the main loop that schedules `p`, with the list of `p` built by
these registrations from an empty list, the Scheduler appends the dependents of
`p` that become ready to the end of the ready list in the order of that walk,
the reverse of the registration order; when `d1, ..., dk` are distinct these are
exactly the `di` whose in-degree was 1, in the order `dk, ..., d1`. -/
theorem add_dependency_reverse_order (s : Planner) (p : Nat) (ds : List Nat) :
    ((ds.foldl (fun st d => add_dependency p d st) s).Topics p).dependencies =
      ds.reverse ++ (s.Topics p).dependencies ∧
    ∀ st : Planner, st.ready ≠ [] → (find_best st.Topics st.ready).2 = p →
      (st.Topics p).dependencies = ds.reverse →
      ∃ added,
        (loop_iteration st).ready =
          st.ready.eraseIdx (find_best st.Topics st.ready).1 ++ added ∧
        (loop_iteration st).schedule_order = st.schedule_order ++ [p] ∧
        added.Sublist ds.reverse ∧
        (ds.Nodup → added = ds.reverse.filter (fun v => decide (st.in_degree v = 1))) := by
  constructor
  · induction ds generalizing s with
    | nil => simp
    | cons d ds ih =>
      rw [List.foldl_cons, ih, add_dependency_dependencies]
      simp
  · intro st hne hp hlist
    have horder := loop_iteration_order st hne
    rw [hp] at horder
    rw [loop_iteration_eq st hne, hp, hlist]
    obtain ⟨added, h1, h2, h3⟩ := process_neighbors_released ds.reverse
      { st with ready := st.ready.eraseIdx (find_best st.Topics st.ready).1
                schedule_order := st.schedule_order ++ [p] }
    refine ⟨added, h1, ?_, h2, fun hnd => h3 (List.nodup_reverse.mpr hnd)⟩
    rw [process_neighbors_order]

theorem add_dependency_reverse_order_witness :
    (((([1, 2] : List Nat).foldl (fun st d => add_dependency 0 d st) fan_base).Topics
        0).dependencies = [2, 1]) ∧
    (start_state fan_state).ready ≠ [] ∧
    (find_best (start_state fan_state).Topics (start_state fan_state).ready).2 = 0 ∧
    ((start_state fan_state).Topics 0).dependencies = ([1, 2] : List Nat).reverse ∧
    ([1, 2] : List Nat).Nodup ∧
    (loop_iteration (start_state fan_state)).ready = [2, 1] ∧
    ∃ added,
      (loop_iteration (start_state fan_state)).ready =
        (start_state fan_state).ready.eraseIdx
          (find_best (start_state fan_state).Topics (start_state fan_state).ready).1 ++ added ∧
      (loop_iteration (start_state fan_state)).schedule_order =
        (start_state fan_state).schedule_order ++ [0] ∧
      added.Sublist ([1, 2] : List Nat).reverse ∧
      added = ([1, 2] : List Nat).reverse.filter
        (fun v => decide ((start_state fan_state).in_degree v = 1)) := by
  refine ⟨by decide, by decide, by decide, by decide, by decide, by decide, ?_⟩
  obtain ⟨added, h1, h2, h3, h4⟩ :=
    (add_dependency_reverse_order fan_base 0 [1, 2]).2 (start_state fan_state) (by decide)
      (by decide) (by decide)
  exact ⟨added, h1, h2, h3, h4 (by decide)⟩

/-- C10 (the claim as stated fails). `add_dependency(0, 1)` on its own leaves
`in_degree[1]` as it was. -/
theorem add_dependency_keeps_in_degree :
    (add_dependency 0 1 fan_base).in_degree 1 ≠ fan_base.in_degree 1 + 1 ∧
    (add_dependency 0 1 fan_base).in_degree 1 = fan_base.in_degree 1 := by
  decide

/-- C10 (amended). `add_dependency` does not touch the in-degree table; the
increment is made by its caller.  For valid topic ids `p` and `d`, one
registration step of `main` (`add_dependency(p, d)` followed by
`in_degree[d]++`) increases `in_degree[d]` by exactly 1 and leaves the in-degree
of every other topic unchanged, also when the same pair is registered again. -/
theorem register_dependency_in_degree (s : Planner) (p d : Int)
    (hp : 0 ≤ p ∧ p < s.total_topics) (hd : 0 ≤ d ∧ d < s.total_topics) :
    (∀ u v, (add_dependency u v s).in_degree = s.in_degree) ∧
    (register_dependency p d s).in_degree d.toNat = s.in_degree d.toNat + 1 ∧
    (∀ v, v ≠ d.toNat → (register_dependency p d s).in_degree v = s.in_degree v) ∧
    (register_dependency p d (register_dependency p d s)).in_degree d.toNat =
      s.in_degree d.toNat + 2 := by
  have hstep : ∀ t : Planner, t.total_topics = s.total_topics →
      (register_dependency p d t).in_degree =
        Function.update t.in_degree d.toNat (t.in_degree d.toNat + 1) ∧
      (register_dependency p d t).total_topics = s.total_topics := by
    intro t ht
    unfold register_dependency
    rw [if_pos (by rw [ht]; exact ⟨hp.1, hp.2, hd.1, hd.2⟩)]
    exact ⟨rfl, ht⟩
  refine ⟨fun u v => rfl, ?_, ?_, ?_⟩
  · rw [(hstep s rfl).1, Function.update_same]
  · intro v hv
    rw [(hstep s rfl).1, Function.update_noteq hv]
  · rw [(hstep _ (hstep s rfl).2).1, Function.update_same, (hstep s rfl).1,
      Function.update_same]
    omega

theorem register_dependency_in_degree_witness :
    ((0 : Int) ≤ 0 ∧ (0 : Int) < fan_base.total_topics) ∧
    ((0 : Int) ≤ 1 ∧ (1 : Int) < fan_base.total_topics) ∧
    ((∀ u v, (add_dependency u v fan_base).in_degree = fan_base.in_degree) ∧
    (register_dependency 0 1 fan_base).in_degree (1 : Int).toNat =
      fan_base.in_degree (1 : Int).toNat + 1 ∧
    (∀ v, v ≠ (1 : Int).toNat →
      (register_dependency 0 1 fan_base).in_degree v = fan_base.in_degree v) ∧
    (register_dependency 0 1 (register_dependency 0 1 fan_base)).in_degree (1 : Int).toNat =
      fan_base.in_degree (1 : Int).toNat + 2) :=
  ⟨by decide, by decide,
    register_dependency_in_degree fan_base 0 1 (by decide) (by decide)⟩

/-! ## Scheduling without dependencies -/

theorem LoopInv.perm_range_of_full {g s : Planner} {rest : List Nat} (h : LoopInv g rest s)
    (hfull : s.schedule_order.length = g.total_topics) :
    s.schedule_order.Perm (List.range g.total_topics) := by
  apply (List.perm_ext_iff_of_nodup h.order_nodup (List.nodup_range _)).mpr
  intro a
  rw [List.mem_range]
  exact ⟨h.order_lt a, fun ha => h.mem_order_of_full hfull ha⟩

theorem no_edge_of_empty_lists (s : Planner)
    (hdeps : ∀ p, p < s.total_topics → (s.Topics p).dependencies = []) (p d : Nat) :
    ¬ Edge s p d := by
  rintro ⟨hp, hd⟩
  rw [hdeps p hp] at hd
  cases hd

theorem consistent_of_empty_lists (s : Planner) (hN : s.total_topics ≤ MAX_TOPICS)
    (hdeps : ∀ p, p < s.total_topics → (s.Topics p).dependencies = [])
    (hdeg : ∀ v, v < s.total_topics → s.in_degree v = 0) : Consistent s := by
  refine ⟨hN, ?_, ?_⟩
  · intro p hp d hd
    exact absurd ⟨hp, hd⟩ (no_edge_of_empty_lists s hdeps p d)
  · intro v hv
    have hz : pending s [] v = 0 :=
      (pending_eq_zero_iff s [] v).mpr
        (fun p hp => absurd hp (no_edge_of_empty_lists s hdeps p v))
    rw [hdeg v hv, ← pending_nil, hz]
    rfl

theorem start_state_ready_of_zero (s : Planner)
    (hdeg : ∀ v, v < s.total_topics → s.in_degree v = 0) :
    (start_state s).ready = List.range s.total_topics := by
  rw [start_state_eq]
  dsimp only
  apply List.filter_eq_self.mpr
  intro a ha
  simpa using hdeg a (List.mem_range.mp ha)

/-- C11. When no dependency is recorded (every dependents list empty and every
in-degree 0), `generate_priority_order` returns without the cycle failure and
`schedule_order` is the list of the ids `0 .. N-1` in descending priority, equal
priorities in ascending id order: it is a permutation of `0 .. N-1` in which
every entry is followed only by entries of strictly smaller priority or of the
same priority and larger id. -/
theorem generate_priority_order_no_dependencies (s : Planner) (fuel : Nat)
    (hN : s.total_topics ≤ MAX_TOPICS)
    (hdeps : ∀ p, p < s.total_topics → (s.Topics p).dependencies = [])
    (hdeg : ∀ v, v < s.total_topics → s.in_degree v = 0)
    (hf : s.total_topics ≤ fuel) :
    ∃ s1, generate_priority_order fuel s = Outcome.returned s1 ∧
      s1.schedule_order.Perm (List.range s.total_topics) ∧
      s1.schedule_order.Pairwise (fun x y =>
        (s.Topics y).priority < (s.Topics x).priority ∨
        ((s.Topics x).priority = (s.Topics y).priority ∧ x < y)) := by
  have hc := consistent_of_empty_lists s hN hdeps hdeg
  have hac : ¬ HasCycle s := by
    rintro ⟨v, hv⟩
    obtain ⟨b, hvb, _⟩ := Relation.TransGen.head'_iff.mp hv
    exact no_edge_of_empty_lists s hdeps v b hvb
  obtain ⟨hinv, hnil, hout⟩ := generate_priority_order_outcome s fuel hc hf
  have hfull := hinv.full_of_acyclic hnil hac
  refine ⟨run_loop fuel (start_state s), ?_, hinv.perm_range_of_full hfull, ?_⟩
  · rw [hout, if_neg (by simp [hfull])]
  · rw [List.pairwise_iff_getElem]
    intro i j hi hj hij
    have hgi : (run_loop fuel (start_state s)).schedule_order[i]? =
        some (run_loop fuel (start_state s)).schedule_order[i] := List.getElem?_eq_getElem hi
    have hgj : (run_loop fuel (start_state s)).schedule_order[j]? =
        some (run_loop fuel (start_state s)).schedule_order[j] := List.getElem?_eq_getElem hj
    generalize (run_loop fuel (start_state s)).schedule_order[i] = a at hgi
    generalize (run_loop fuel (start_state s)).schedule_order[j] = b at hgj
    have haN : a < s.total_topics := hinv.order_lt a (mem_of_getElem?_eq_some hgi)
    have hbN : b < s.total_topics := hinv.order_lt b (mem_of_getElem?_eq_some hgj)
    have hle : (s.Topics b).priority ≤ (s.Topics a).priority := by
      apply hinv.greedy i a hgi b hbN
      · intro hmem
        obtain ⟨k, hk, hget⟩ := List.mem_take_iff_getElem.mp hmem
        have hk2 : (run_loop fuel (start_state s)).schedule_order[k]? = some b := by
          rw [← hget]
          exact List.getElem?_eq_getElem (by omega)
        have := List.getElem?_inj (by omega) hinv.order_nodup (hk2.trans hgj.symm)
        omega
      · intro p hp
        exact absurd hp (no_edge_of_empty_lists s hdeps p b)
    rcases lt_or_eq_of_le hle with hlt | heq
    · exact Or.inl hlt
    · right
      refine ⟨heq.symm, ?_⟩
      by_contra hnot
      have hne : a ≠ b := by
        intro e
        have := List.getElem?_inj hi hinv.order_nodup (hgi.trans (e ▸ hgj.symm))
        omega
      have hba : b < a := by omega
      have hstart : Before (start_state s).ready b a := by
        rw [start_state_ready_of_zero s hdeg]
        exact ⟨b, a, hba, by rw [List.getElem?_range hbN], by rw [List.getElem?_range haN]⟩
      have hstage : TieStage b a (run_loop fuel (start_state s)) :=
        TieStage.after_run hc.valid (le_of_eq heq.symm) fuel (LoopInv.start hc) (Or.inl hstart)
      obtain ⟨i2, j2, hij2, hi2, hj2⟩ := hstage.done hnil
      have h1 := List.getElem?_inj hj hinv.order_nodup (hgj.trans hi2.symm)
      have h2 := List.getElem?_inj hi hinv.order_nodup (hgi.trans hj2.symm)
      omega

theorem generate_priority_order_no_dependencies_witness :
    plain_state.total_topics ≤ MAX_TOPICS ∧
    (∀ p, p < plain_state.total_topics → (plain_state.Topics p).dependencies = []) ∧
    (∀ v, v < plain_state.total_topics → plain_state.in_degree v = 0) ∧
    plain_state.total_topics ≤ 2 ∧
    (run_loop 2 (start_state plain_state)).schedule_order = [1, 0] ∧
    ∃ s1, generate_priority_order 2 plain_state = Outcome.returned s1 ∧
      s1.schedule_order.Perm (List.range plain_state.total_topics) ∧
      s1.schedule_order.Pairwise (fun x y =>
        (plain_state.Topics y).priority < (plain_state.Topics x).priority ∨
        ((plain_state.Topics x).priority = (plain_state.Topics y).priority ∧ x < y)) :=
  ⟨by decide, by decide, by decide, by decide, by decide,
    generate_priority_order_no_dependencies plain_state 2 (by decide) (by decide) (by decide)
      (by decide)⟩

/-! ## Empty input -/

/-- C12. With zero topics `generate_priority_order` returns without the cycle
failure, whatever the iteration budget, and leaves the empty order
(`order_count = 0`); for every daily capacity `print_schedule` then prints zero
days. -/
theorem generate_priority_order_empty (s : Planner) (fuel : Nat) (daily_limit : Int)
    (h0 : s.total_topics = 0) :
    ∃ s1, generate_priority_order fuel s = Outcome.returned s1 ∧
      s1.schedule_order = [] ∧ s1.order_count = 0 ∧ print_schedule daily_limit s1 = [] := by
  have hstart : start_state s = { s with schedule_order := [], ready := [] } := by
    rw [start_state_eq, h0]
    rfl
  have hrun : run_loop fuel (start_state s) = { s with schedule_order := [], ready := [] } := by
    rw [hstart]
    exact run_loop_ready_nil fuel _ rfl
  refine ⟨{ s with schedule_order := [], ready := [] }, ?_, rfl, rfl, ?_⟩
  · unfold generate_priority_order
    rw [hrun]
    dsimp only
    rw [if_neg (by simp), if_neg (by simp [h0])]
  · unfold print_schedule
    exact if_pos rfl

theorem generate_priority_order_empty_witness :
    empty_state.total_topics = 0 ∧
    ∃ s1, generate_priority_order 0 empty_state = Outcome.returned s1 ∧
      s1.schedule_order = [] ∧ s1.order_count = 0 ∧ print_schedule 5 s1 = [] :=
  ⟨rfl, generate_priority_order_empty empty_state 0 5 rfl⟩

/-! ## Running the scheduler again -/

theorem uphill_state_consistent : Consistent uphill_state :=
  ⟨by decide, by decide, by decide⟩

theorem uphill_state_acyclic : ¬ HasCycle uphill_state :=
  acyclic_of_rank uphill_state id (by decide)

theorem generate_priority_order_congr (fuel : Nat) (a b : Planner)
    (h : start_state a = start_state b) :
    generate_priority_order fuel a = generate_priority_order fuel b := by
  unfold generate_priority_order
  rw [h]

/-- C13 (the claim as stated fails). Topics A (priority 5) and B (priority 8) with
the dependency A → B: the first run of `generate_priority_order` returns the
order `A, B` and leaves every in-degree at 0; a second run on that state returns
the order `B, A`. -/
theorem generate_priority_order_second_run_differs :
    Consistent uphill_state ∧ ¬ HasCycle uphill_state ∧
    ∃ s1 s2, generate_priority_order 2 uphill_state = Outcome.returned s1 ∧
      generate_priority_order 2 s1 = Outcome.returned s2 ∧
      s1.schedule_order = [0, 1] ∧ s2.schedule_order = [1, 0] ∧
      s2.schedule_order ≠ s1.schedule_order := by
  refine ⟨uphill_state_consistent, uphill_state_acyclic,
    run_loop 2 (start_state uphill_state),
    run_loop 2 (start_state (run_loop 2 (start_state uphill_state))), ?_, ?_,
    by decide, by decide, by decide⟩
  · unfold generate_priority_order
    dsimp only
    rw [if_neg (by decide), if_neg (by decide)]
  · unfold generate_priority_order
    dsimp only
    rw [if_neg (by decide), if_neg (by decide)]

/-- C13 (amended). For an acyclic graph set up once, running
`generate_priority_order`, putting the set-up values back into the in-degree
table (topics and dependents lists are as the first run left them), and running
it again yields the same `schedule_order` and `order_count` as the first run. -/
theorem generate_priority_order_rerun_restored (s : Planner) (fuel : Nat)
    (hc : Consistent s) (hac : ¬ HasCycle s) (hf : s.total_topics ≤ fuel) :
    ∃ s1 s2, generate_priority_order fuel s = Outcome.returned s1 ∧
      generate_priority_order fuel { s1 with in_degree := s.in_degree } =
        Outcome.returned s2 ∧
      s2.schedule_order = s1.schedule_order ∧ s2.order_count = s1.order_count := by
  obtain ⟨hinv, hnil, hout⟩ := generate_priority_order_outcome s fuel hc hf
  have hfull := hinv.full_of_acyclic hnil hac
  have hfirst : generate_priority_order fuel s =
      Outcome.returned (run_loop fuel (start_state s)) := by
    rw [hout, if_neg (by simp [hfull])]
  have hsame : start_state { run_loop fuel (start_state s) with in_degree := s.in_degree } =
      start_state s := by
    have ht := hinv.topics
    have hn := hinv.total
    generalize run_loop fuel (start_state s) = r at ht hn
    rw [start_state_eq, start_state_eq]
    dsimp only
    rw [ht, hn]
  refine ⟨run_loop fuel (start_state s), run_loop fuel (start_state s), hfirst, ?_, rfl, rfl⟩
  rw [generate_priority_order_congr fuel _ s hsame, hfirst]

theorem generate_priority_order_rerun_restored_witness :
    Consistent uphill_state ∧ ¬ HasCycle uphill_state ∧ uphill_state.total_topics ≤ 2 ∧
    ∃ s1 s2, generate_priority_order 2 uphill_state = Outcome.returned s1 ∧
      generate_priority_order 2 { s1 with in_degree := uphill_state.in_degree } =
        Outcome.returned s2 ∧
      s2.schedule_order = s1.schedule_order ∧ s2.order_count = s1.order_count :=
  ⟨uphill_state_consistent, uphill_state_acyclic, by decide,
    generate_priority_order_rerun_restored uphill_state 2 uphill_state_consistent
      uphill_state_acyclic (by decide)⟩

/-! ## Termination -/

/-- C14. For every graph state with at most `MAX_TOPICS` topics and only valid ids
in the dependents lists, cyclic or not and whatever the in-degree table holds:
the main loop of `generate_priority_order` performs at most `total_topics`
iterations, the ready list is empty after that many, no topic is extracted
twice, and with a budget of at least `total_topics` iterations the function ends
by returning or by reporting the cycle failure. -/
theorem generate_priority_order_terminates (s : Planner)
    (hN : s.total_topics ≤ MAX_TOPICS)
    (hvalid : ∀ p < s.total_topics, ∀ d ∈ (s.Topics p).dependencies, d < s.total_topics) :
    (∀ fuel, loop_iterations fuel (start_state s) ≤ s.total_topics) ∧
    (run_loop s.total_topics (start_state s)).ready = [] ∧
    (∀ fuel, (run_loop fuel (start_state s)).schedule_order.Nodup) ∧
    (∀ fuel, s.total_topics ≤ fuel →
      generate_priority_order fuel s = Outcome.returned (run_loop fuel (start_state s)) ∨
      generate_priority_order fuel s = Outcome.circular (run_loop fuel (start_state s))) ∧
    s.total_topics ≤ 100 := by
  have hstart : SafeInv s (start_state s) := by
    rw [start_state_eq_start_point]
    exact SafeInv.at_start_point s s.total_topics (le_refl _)
  have hlen0 : (start_state s).schedule_order.length = 0 := by
    rw [start_state_eq]
    rfl
  refine ⟨?_, ?_, ?_, ?_, hN⟩
  · intro fuel
    have := hstart.iterations_le hvalid fuel
    omega
  · apply hstart.keep_run_terminates hvalid
    omega
  · intro fuel
    exact (hstart.keep_run hvalid fuel).order_nodup
  · intro fuel hf
    have hnil : (run_loop fuel (start_state s)).ready = [] := by
      apply hstart.keep_run_terminates hvalid
      omega
    unfold generate_priority_order
    dsimp only
    rw [if_neg (by simp [hnil])]
    split
    · exact Or.inr rfl
    · exact Or.inl rfl

theorem generate_priority_order_terminates_witness :
    mutual_state.total_topics ≤ MAX_TOPICS ∧
    (∀ p < mutual_state.total_topics, ∀ d ∈ (mutual_state.Topics p).dependencies,
      d < mutual_state.total_topics) ∧
    ((∀ fuel, loop_iterations fuel (start_state mutual_state) ≤ mutual_state.total_topics) ∧
    (run_loop mutual_state.total_topics (start_state mutual_state)).ready = [] ∧
    (∀ fuel, (run_loop fuel (start_state mutual_state)).schedule_order.Nodup) ∧
    (∀ fuel, mutual_state.total_topics ≤ fuel →
      generate_priority_order fuel mutual_state =
        Outcome.returned (run_loop fuel (start_state mutual_state)) ∨
      generate_priority_order fuel mutual_state =
        Outcome.circular (run_loop fuel (start_state mutual_state))) ∧
    mutual_state.total_topics ≤ 100) :=
  ⟨by decide, by decide,
    generate_priority_order_terminates mutual_state (by decide) (by decide)⟩

/-! ## Invariants of the main loop -/

theorem LoopInv.process_prefix {g : Planner} (l1 l2 : List Nat) {s : Planner}
    (h : LoopInv g (l1 ++ l2) s) : LoopInv g l2 (process_neighbors l1 s) := by
  unfold process_neighbors
  induction l1 generalizing s with
  | nil => exact h
  | cons v l1 ih =>
    rw [List.foldl_cons]
    exact ih (LoopInv.release h)

theorem LoopInv.inner {g s : Planner}
    (hvalid : ∀ p < g.total_topics, ∀ d ∈ (g.Topics p).dependencies, d < g.total_topics)
    (h : LoopInv g [] s) (hne : s.ready ≠ []) (m : Nat) :
    LoopInv g ((s.Topics (find_best s.Topics s.ready).2).dependencies.drop m)
      (inner_point s m) := by
  rw [inner_point_eq s m hne]
  apply LoopInv.process_prefix
  rw [List.take_append_drop]
  exact h.extract hvalid hne

theorem LoopInv.ready_facts {g s : Planner} {rest : List Nat} (h : LoopInv g rest s) :
    s.ready.Nodup ∧ ∀ v, v ∈ s.ready →
      v ∉ s.schedule_order ∧ s.in_degree v = 0 ∧
      ∀ p, Edge g p v → p ∈ s.schedule_order := by
  refine ⟨h.ready_nodup, ?_⟩
  intro v hv
  obtain ⟨hvN, hvn, hv0⟩ := (h.ready_iff v).mp hv
  refine ⟨hvn, hv0, ?_⟩
  apply (pending_eq_zero_iff g _ v).mp
  have := h.degree v hvN
  rw [hv0] at this
  omega

/-- C15. Starting from a consistent graph state, between any two iterations of the
main loop of `generate_priority_order` (after `k` iterations, for every `k`) and
for every topic `v`, `in_degree[v]` equals the number of recorded edges into `v`,
with multiplicity, whose prerequisite has not yet been appended to
`schedule_order`; in particular it is never negative. -/
theorem generate_priority_order_in_degree_invariant (s : Planner) (k : Nat)
    (hc : Consistent s) (v : Nat) (hv : v < s.total_topics) :
    (run_loop k (start_state s)).in_degree v =
      (pending s (run_loop k (start_state s)).schedule_order v : Int) ∧
    0 ≤ (run_loop k (start_state s)).in_degree v := by
  have hinv : LoopInv s [] (run_loop k (start_state s)) :=
    LoopInv.run hc.valid k (LoopInv.start hc)
  have := hinv.degree v hv
  simp only [List.count_nil, Nat.cast_zero, add_zero] at this
  refine ⟨this, ?_⟩
  rw [this]
  exact Int.natCast_nonneg _

theorem generate_priority_order_in_degree_invariant_witness :
    Consistent chain_state ∧ 1 < chain_state.total_topics ∧
    ((run_loop 1 (start_state chain_state)).in_degree 1 =
      (pending chain_state (run_loop 1 (start_state chain_state)).schedule_order 1 : Int) ∧
    0 ≤ (run_loop 1 (start_state chain_state)).in_degree 1) :=
  ⟨chain_state_consistent, by decide,
    generate_priority_order_in_degree_invariant chain_state 1 chain_state_consistent 1
      (by decide)⟩

/-- C16. Starting from a consistent graph state, at every point of the main loop of
`generate_priority_order` (between iterations, and inside an iteration after the
extracted topic is appended and any number `m` of its dependents is handled) the
ready list contains no id twice, contains no topic that is in `schedule_order`,
and contains only topics with in-degree 0 all of whose prerequisites are in
`schedule_order`. -/
theorem generate_priority_order_ready_invariant (s : Planner) (k : Nat)
    (hc : Consistent s) :
    ((run_loop k (start_state s)).ready.Nodup ∧
      ∀ v, v ∈ (run_loop k (start_state s)).ready →
        v ∉ (run_loop k (start_state s)).schedule_order ∧
        (run_loop k (start_state s)).in_degree v = 0 ∧
        ∀ p, Edge s p v → p ∈ (run_loop k (start_state s)).schedule_order) ∧
    (∀ m, (run_loop k (start_state s)).ready ≠ [] →
      (inner_point (run_loop k (start_state s)) m).ready.Nodup ∧
      ∀ v, v ∈ (inner_point (run_loop k (start_state s)) m).ready →
        v ∉ (inner_point (run_loop k (start_state s)) m).schedule_order ∧
        (inner_point (run_loop k (start_state s)) m).in_degree v = 0 ∧
        ∀ p, Edge s p v → p ∈ (inner_point (run_loop k (start_state s)) m).schedule_order) := by
  have hinv : LoopInv s [] (run_loop k (start_state s)) :=
    LoopInv.run hc.valid k (LoopInv.start hc)
  exact ⟨hinv.ready_facts, fun m hne => (hinv.inner hc.valid hne m).ready_facts⟩

theorem generate_priority_order_ready_invariant_witness :
    Consistent chain_state ∧
    (((run_loop 0 (start_state chain_state)).ready.Nodup ∧
      ∀ v, v ∈ (run_loop 0 (start_state chain_state)).ready →
        v ∉ (run_loop 0 (start_state chain_state)).schedule_order ∧
        (run_loop 0 (start_state chain_state)).in_degree v = 0 ∧
        ∀ p, Edge chain_state p v → p ∈ (run_loop 0 (start_state chain_state)).schedule_order) ∧
    (∀ m, (run_loop 0 (start_state chain_state)).ready ≠ [] →
      (inner_point (run_loop 0 (start_state chain_state)) m).ready.Nodup ∧
      ∀ v, v ∈ (inner_point (run_loop 0 (start_state chain_state)) m).ready →
        v ∉ (inner_point (run_loop 0 (start_state chain_state)) m).schedule_order ∧
        (inner_point (run_loop 0 (start_state chain_state)) m).in_degree v = 0 ∧
        ∀ p, Edge chain_state p v →
          p ∈ (inner_point (run_loop 0 (start_state chain_state)) m).schedule_order)) :=
  ⟨chain_state_consistent,
    generate_priority_order_ready_invariant chain_state 0 chain_state_consistent⟩

/-! ## When the packer opens a new day -/

theorem chain_consecutive {α : Type} {R : α → α → Prop} {l : List α} (h : l.Chain' R) :
    ∀ (k : Nat) (d1 d2 : α), l[k]? = some d1 → l[k + 1]? = some d2 → R d1 d2 := by
  induction l with
  | nil =>
    intro k d1 d2 h1
    simp at h1
  | cons a l ih =>
    intro k d1 d2 h1 h2
    cases k with
    | zero =>
      cases l with
      | nil => simp at h2
      | cons b t =>
        simp at h1 h2
        subst h1 h2
        exact (List.chain'_cons.mp h).1
    | succ k =>
      simp only [List.getElem?_cons_succ] at h1 h2
      exact ih h.tail k d1 d2 h1 h2

/-- One pass of the packing loop keeps the relation between consecutive days,
provided the topic that opens a new day does not fit in exact arithmetic. -/
theorem place_topic_opens_when_full (Topics : Nat → Topic) (daily_limit : Int)
    (st : PackState) (t : Nat)
    (hchain : st.blocks.Chain' (OpensWhenFull Topics daily_limit))
    (hstep : ¬ wrap32 (st.day_time_used + (Topics t).duration) ≤ daily_limit →
      daily_limit < total_duration Topics st.block + (Topics t).duration) :
    (place_topic Topics daily_limit st t).blocks.Chain' (OpensWhenFull Topics daily_limit) := by
  unfold PackState.blocks at hchain
  obtain ⟨hprinted, _, hlast⟩ := List.chain'_append.mp hchain
  unfold place_topic PackState.blocks
  dsimp only
  split
  · dsimp only
    refine List.chain'_append.mpr ⟨hprinted, List.chain'_singleton _, ?_⟩
    intro x hx y hy
    simp only [List.head?_cons, Option.mem_def, Option.some.injEq] at hy
    subst hy
    obtain ⟨t0, rest, hblock, hlt⟩ := hlast x hx (st.current_day, st.block) (by simp)
    dsimp only at hblock
    exact ⟨t0, rest ++ [t], by dsimp only; rw [hblock]; rfl, hlt⟩
  · rename_i hnofit
    dsimp only
    refine List.chain'_append.mpr ⟨hchain, List.chain'_singleton _, ?_⟩
    intro x hx y hy
    rw [Option.mem_def, List.getLast?_concat] at hx
    have hx := Option.some.inj hx
    simp only [List.head?_cons, Option.mem_def, Option.some.injEq] at hy
    subst hx hy
    exact ⟨t, [], rfl, hstep hnofit⟩

theorem total_duration_append_singleton (Topics : Nat → Topic) (l : List Nat) (t : Nat) :
    total_duration Topics (l ++ [t]) = total_duration Topics l + (Topics t).duration := by
  unfold total_duration
  rw [List.map_append, List.sum_append]
  simp

theorem total_duration_singleton (Topics : Nat → Topic) (t : Nat) :
    total_duration Topics [t] = (Topics t).duration := by
  unfold total_duration
  simp

/-- The relation between consecutive days along the packing loop when no sum leaves
the range of `int`. -/
theorem pack_fold_opens_exact (Topics : Nat → Topic) (daily_limit : Int) (l : List Nat)
    (st : PackState)
    (hfit : sums_fit Topics daily_limit st l = true)
    (hchain : st.blocks.Chain' (OpensWhenFull Topics daily_limit))
    (hused : st.day_time_used = total_duration Topics st.block) :
    (l.foldl (place_topic Topics daily_limit) st).blocks.Chain'
      (OpensWhenFull Topics daily_limit) := by
  induction l generalizing st with
  | nil => exact hchain
  | cons t l ih =>
    obtain ⟨⟨hd1, hd2, hs1, hs2⟩, hrest⟩ := sums_fit_cons Topics daily_limit st t l hfit
    rw [List.foldl_cons]
    apply ih _ hrest
    · apply place_topic_opens_when_full Topics daily_limit st t hchain
      intro hno
      rw [wrap32_eq _ hs1 hs2] at hno
      rw [← hused]
      omega
    · rw [place_topic_exact Topics daily_limit st t hd1 hd2 hs1 hs2]
      split
      · dsimp only
        rw [total_duration_append_singleton, hused]
      · dsimp only
        rw [total_duration_singleton]

/-- The relation between consecutive days along the packing loop when all durations
are non-negative `int` values, whether or not a sum wraps: `day_time_used` never
exceeds the total duration of the current block. -/
theorem pack_fold_opens_nonneg (Topics : Nat → Topic) (daily_limit : Int) (l : List Nat)
    (st : PackState) (hL : daily_limit ≤ INT_MAX)
    (hdur : ∀ t, t ∈ l → 0 ≤ (Topics t).duration ∧ (Topics t).duration ≤ INT_MAX)
    (hchain : st.blocks.Chain' (OpensWhenFull Topics daily_limit))
    (hle : st.day_time_used ≤ total_duration Topics st.block)
    (hmin : INT_MIN ≤ st.day_time_used) :
    (l.foldl (place_topic Topics daily_limit) st).blocks.Chain'
      (OpensWhenFull Topics daily_limit) := by
  induction l generalizing st with
  | nil => exact hchain
  | cons t l ih =>
    obtain ⟨hd0, hd2⟩ := hdur t (List.mem_cons_self _ _)
    have hx : INT_MIN ≤ st.day_time_used + (Topics t).duration := by omega
    have hzero : wrap32 (0 + (Topics t).duration) = (Topics t).duration := by
      rw [Int.zero_add]
      apply wrap32_eq _ _ hd2
      unfold INT_MIN
      omega
    rw [List.foldl_cons]
    apply ih _ (fun w hw => hdur w (List.mem_cons_of_mem _ hw))
    · apply place_topic_opens_when_full Topics daily_limit st t hchain
      intro hno
      by_cases hbig : st.day_time_used + (Topics t).duration ≤ INT_MAX
      · rw [wrap32_eq _ hx hbig] at hno
        omega
      · omega
    · unfold place_topic
      dsimp only
      split
      · dsimp only
        rw [total_duration_append_singleton]
        have := wrap32_le _ hx
        omega
      · dsimp only
        rw [total_duration_singleton, hzero]
    · unfold place_topic
      dsimp only
      split
      · exact (wrap32_range _).1
      · exact (wrap32_range _).1

/-- C17 (the claim as stated fails). Topics of -2147483648 and -1 hours with a
daily capacity of 5: the first topic is listed on Day 1, the `int` sum
`-2147483648 + -1` wraps to 2147483647, which exceeds 5, so the second topic
opens Day 2 although the total of Day 1 plus its duration is below the
capacity. -/
theorem print_schedule_opens_when_full_overflow :
    (run_loop 2 (start_state { negative_state with schedule_order := [] })).schedule_order =
      negative_state.schedule_order ∧
    print_schedule 5 negative_state = [(1, [0]), (2, [1])] ∧
    ¬ (∀ (k : Nat) (d1 d2 : Int × List Nat),
      (print_schedule 5 negative_state)[k]? = some d1 →
      (print_schedule 5 negative_state)[k + 1]? = some d2 →
      ∃ t rest, d2.2 = t :: rest ∧
        5 < total_duration negative_state.Topics d1.2 + (negative_state.Topics t).duration) := by
  refine ⟨by decide, by decide, ?_⟩
  intro h
  obtain ⟨t, rest, h1, h2⟩ := h 0 (1, [0]) (2, [1]) (by decide) (by decide)
  have ht : t = 1 := by
    dsimp only at h1
    cases h1
    rfl
  subst ht
  exact absurd h2 (by decide)

/-- C17 (amended). For a schedule order and a capacity such that no `int` sum
`day_time_used + dur` formed by `print_schedule` leaves the range of `int`, or
such that all durations are non-negative (durations and capacity being `int`
values): any two consecutive days `k` and `k+1` printed by `print_schedule`
satisfy that day `k+1` has a first topic and the total duration of day `k` plus
the duration of that topic exceeds the capacity.  So a topic that fits into what
is left of the current day is never moved to a new day. -/
theorem print_schedule_opens_when_full (daily_limit : Int) (s : Planner) (k : Nat)
    (d1 d2 : Int × List Nat)
    (hrange : no_overflow daily_limit s = true ∨
      (daily_limit ≤ INT_MAX ∧
        ∀ t, t ∈ s.schedule_order → 0 ≤ (s.Topics t).duration ∧ (s.Topics t).duration ≤ INT_MAX)) :
    (print_schedule daily_limit s)[k]? = some d1 →
    (print_schedule daily_limit s)[k + 1]? = some d2 →
    ∃ t rest, d2.2 = t :: rest ∧
      daily_limit < total_duration s.Topics d1.2 + (s.Topics t).duration := by
  have hchain : (print_schedule daily_limit s).Chain' (OpensWhenFull s.Topics daily_limit) := by
    by_cases h : s.schedule_order = []
    · unfold print_schedule
      rw [if_pos (by simp [h])]
      exact List.chain'_nil
    · rw [print_schedule_eq daily_limit s h]
      rcases hrange with hfit | ⟨hL, hdur⟩
      · exact pack_fold_opens_exact s.Topics daily_limit s.schedule_order _ hfit
          (List.chain'_singleton _) rfl
      · apply pack_fold_opens_nonneg s.Topics daily_limit s.schedule_order _ hL hdur
        · exact List.chain'_singleton _
        · exact le_of_eq rfl
        · decide
  exact chain_consecutive hchain k d1 d2

theorem print_schedule_opens_when_full_witness :
    (no_overflow 4 { plain_state with schedule_order := [1, 0] } = true ∨
      ((4 : Int) ≤ INT_MAX ∧
        ∀ t, t ∈ ({ plain_state with schedule_order := [1, 0] } : Planner).schedule_order →
          0 ≤ (plain_state.Topics t).duration ∧ (plain_state.Topics t).duration ≤ INT_MAX)) ∧
    (print_schedule 4 { plain_state with schedule_order := [1, 0] })[0]? = some (1, [1]) ∧
    (print_schedule 4 { plain_state with schedule_order := [1, 0] })[0 + 1]? =
      some (2, [0]) ∧
    ∃ t rest, ((2, [0]) : Int × List Nat).2 = t :: rest ∧
      4 < total_duration plain_state.Topics ((1, [1]) : Int × List Nat).2 +
        (plain_state.Topics t).duration :=
  ⟨Or.inl (by decide), by decide, by decide,
    print_schedule_opens_when_full 4 { plain_state with schedule_order := [1, 0] } 0
      (1, [1]) (2, [0]) (Or.inl (by decide)) (by decide) (by decide)⟩

/-! ## What extraction does to the ready list -/

/-- C18. On a non-empty ready list `get_highest_priority_topic` returns the entry
at the index `best_index` found by the scan and removes exactly that entry:
afterwards `ready_count` is one less and `ready[0..ready_count)` is the previous
list with the entry at `best_index` deleted, the entries before and after it
kept in order; the other globals are untouched. -/
theorem get_highest_priority_topic_removes_chosen (s : Planner) (h : s.ready ≠ []) :
    (find_best s.Topics s.ready).1 < s.ready.length ∧
    (get_highest_priority_topic s).1 = s.ready[(find_best s.Topics s.ready).1]? ∧
    (get_highest_priority_topic s).2.ready =
      s.ready.eraseIdx (find_best s.Topics s.ready).1 ∧
    (get_highest_priority_topic s).2.ready =
      s.ready.take (find_best s.Topics s.ready).1 ++
        s.ready.drop ((find_best s.Topics s.ready).1 + 1) ∧
    (get_highest_priority_topic s).2.ready_count + 1 = s.ready_count ∧
    (get_highest_priority_topic s).2.Topics = s.Topics ∧
    (get_highest_priority_topic s).2.in_degree = s.in_degree ∧
    (get_highest_priority_topic s).2.schedule_order = s.schedule_order ∧
    (get_highest_priority_topic s).2.total_topics = s.total_topics := by
  have hb := find_best_inv s.Topics s.ready h
  have hlt : (find_best s.Topics s.ready).1 < s.ready.length :=
    (List.getElem?_eq_some.mp hb.get).1
  rw [get_highest_priority_topic_eq s h]
  refine ⟨hlt, hb.get.symm, rfl, List.eraseIdx_eq_take_drop_succ _ _, ?_, rfl, rfl, rfl, rfl⟩
  unfold Planner.ready_count
  dsimp only
  rw [List.length_eraseIdx_of_lt hlt]
  omega

theorem get_highest_priority_topic_removes_chosen_witness :
    ({ plain_state with ready := [0, 1] } : Planner).ready ≠ [] ∧
    (get_highest_priority_topic { plain_state with ready := [0, 1] }).2.ready = [0] ∧
    ((find_best plain_state.Topics [0, 1]).1 < ([0, 1] : List Nat).length ∧
    (get_highest_priority_topic { plain_state with ready := [0, 1] }).1 =
      ([0, 1] : List Nat)[(find_best plain_state.Topics [0, 1]).1]? ∧
    (get_highest_priority_topic { plain_state with ready := [0, 1] }).2.ready =
      ([0, 1] : List Nat).eraseIdx (find_best plain_state.Topics [0, 1]).1 ∧
    (get_highest_priority_topic { plain_state with ready := [0, 1] }).2.ready =
      ([0, 1] : List Nat).take (find_best plain_state.Topics [0, 1]).1 ++
        ([0, 1] : List Nat).drop ((find_best plain_state.Topics [0, 1]).1 + 1) ∧
    (get_highest_priority_topic { plain_state with ready := [0, 1] }).2.ready_count + 1 =
      ({ plain_state with ready := [0, 1] } : Planner).ready_count ∧
    (get_highest_priority_topic { plain_state with ready := [0, 1] }).2.Topics =
      plain_state.Topics ∧
    (get_highest_priority_topic { plain_state with ready := [0, 1] }).2.in_degree =
      plain_state.in_degree ∧
    (get_highest_priority_topic { plain_state with ready := [0, 1] }).2.schedule_order =
      plain_state.schedule_order ∧
    (get_highest_priority_topic { plain_state with ready := [0, 1] }).2.total_topics =
      plain_state.total_topics) :=
  ⟨by decide, by decide,
    get_highest_priority_topic_removes_chosen { plain_state with ready := [0, 1] } (by decide)⟩

/-! ## Array bounds for arbitrary in-degree tables -/

theorem SafeInv.in_bounds {g p : Planner} (h : SafeInv g p)
    (hN : g.total_topics ≤ MAX_TOPICS) : InBounds g p := by
  have hlen := h.length_le
  refine ⟨List.Nodup.append h.ready_nodup h.order_nodup (fun a ha hb => h.disjoint a ha hb),
    ?_, hlen, ?_, ?_⟩
  · intro v hv
    rcases List.mem_append.mp hv with hv | hv
    · exact h.ready_lt v hv
    · exact h.order_lt v hv
  · unfold Planner.ready_count
    omega
  · unfold Planner.order_count
    omega

/-- C19. Whatever the in-degree table holds at the start, with at most
`MAX_TOPICS` topics and only valid ids in the dependents lists, every state of a
run of `generate_priority_order` (inside Step A, between iterations of the main
loop, and inside an iteration) has no id twice in the ready list and the schedule
order taken together, so no id is inserted into the ready list twice;
`ready_count + order_count` never exceeds `total_topics`, so both counters stay
at most `MAX_TOPICS` and each write `ready[ready_count++]`,
`schedule_order[order_count++]` uses an index below `MAX_TOPICS`; and
`schedule_order` contains no id twice. -/
theorem generate_priority_order_in_bounds (s : Planner)
    (hN : s.total_topics ≤ MAX_TOPICS)
    (hvalid : ∀ p < s.total_topics, ∀ d ∈ (s.Topics p).dependencies, d < s.total_topics) :
    (∀ i, i ≤ s.total_topics → InBounds s (start_point s i)) ∧
    (∀ k, InBounds s (run_loop k (start_state s))) ∧
    (∀ k m, (run_loop k (start_state s)).ready ≠ [] →
      InBounds s (inner_point (run_loop k (start_state s)) m)) ∧
    (∀ k, (run_loop k (start_state s)).schedule_order.Nodup) := by
  have hstart : SafeInv s (start_state s) := by
    rw [start_state_eq_start_point]
    exact SafeInv.at_start_point s s.total_topics (le_refl _)
  refine ⟨?_, ?_, ?_, ?_⟩
  · intro i hi
    exact (SafeInv.at_start_point s i hi).in_bounds hN
  · intro k
    exact (hstart.keep_run hvalid k).in_bounds hN
  · intro k m hne
    exact ((hstart.keep_run hvalid k).keep_inner hvalid hne m).in_bounds hN
  · intro k
    exact (hstart.keep_run hvalid k).order_nodup

theorem generate_priority_order_in_bounds_witness :
    ({ chain_state with in_degree := fun _ => 0 } : Planner).total_topics ≤ MAX_TOPICS ∧
    (∀ p < ({ chain_state with in_degree := fun _ => 0 } : Planner).total_topics,
      ∀ d ∈ (({ chain_state with in_degree := fun _ => 0 } : Planner).Topics p).dependencies,
        d < ({ chain_state with in_degree := fun _ => 0 } : Planner).total_topics) ∧
    (run_loop 2 (start_state { chain_state with in_degree := fun _ => 0 })).in_degree 1 = -1 ∧
    ((∀ i, i ≤ ({ chain_state with in_degree := fun _ => 0 } : Planner).total_topics →
      InBounds { chain_state with in_degree := fun _ => 0 }
        (start_point { chain_state with in_degree := fun _ => 0 } i)) ∧
    (∀ k, InBounds { chain_state with in_degree := fun _ => 0 }
      (run_loop k (start_state { chain_state with in_degree := fun _ => 0 }))) ∧
    (∀ k m, (run_loop k (start_state { chain_state with in_degree := fun _ => 0 })).ready ≠ [] →
      InBounds { chain_state with in_degree := fun _ => 0 }
        (inner_point (run_loop k (start_state { chain_state with in_degree := fun _ => 0 })) m)) ∧
    (∀ k, (run_loop k
      (start_state { chain_state with in_degree := fun _ => 0 })).schedule_order.Nodup)) :=
  ⟨by decide, by decide, by decide,
    generate_priority_order_in_bounds { chain_state with in_degree := fun _ => 0 } (by decide)
      (by decide)⟩

/-! ## The in-degree table after a successful run -/

/-- C20. From a consistent graph state, with a budget of at least `total_topics`
iterations: whenever `generate_priority_order` returns (as it does on every
acyclic graph), `in_degree[v]` is 0 for every topic `v`, while `Topics` with all
dependents lists and `total_topics` are as before the call. -/
theorem generate_priority_order_consumes_in_degree (s : Planner) (fuel : Nat)
    (hc : Consistent s) (hf : s.total_topics ≤ fuel) :
    (¬ HasCycle s → ∃ s1, generate_priority_order fuel s = Outcome.returned s1) ∧
    ∀ s1, generate_priority_order fuel s = Outcome.returned s1 →
      (∀ v, v < s.total_topics → s1.in_degree v = 0) ∧
      s1.Topics = s.Topics ∧ s1.total_topics = s.total_topics := by
  obtain ⟨hinv, hnil, hout⟩ := generate_priority_order_outcome s fuel hc hf
  refine ⟨?_, ?_⟩
  · intro hac
    have hfull := hinv.full_of_acyclic hnil hac
    exact ⟨_, by rw [hout, if_neg (by simp [hfull])]⟩
  · intro s1 hs1
    rw [hout] at hs1
    split at hs1
    · cases hs1
    · rename_i hfull
      simp only [ne_eq, not_not] at hfull
      cases hs1
      refine ⟨?_, hinv.topics, hinv.total⟩
      intro v hv
      have hz : pending s (run_loop fuel (start_state s)).schedule_order v = 0 :=
        (pending_eq_zero_iff s _ v).mpr (fun p hp => hinv.mem_order_of_full hfull hp.1)
      rw [hinv.degree v hv, hz]
      rfl

theorem generate_priority_order_consumes_in_degree_witness :
    Consistent chain_state ∧ chain_state.total_topics ≤ 2 ∧
    chain_state.in_degree 1 = 1 ∧
    (run_loop 2 (start_state chain_state)).in_degree 1 = 0 ∧
    ((¬ HasCycle chain_state →
      ∃ s1, generate_priority_order 2 chain_state = Outcome.returned s1) ∧
    ∀ s1, generate_priority_order 2 chain_state = Outcome.returned s1 →
      (∀ v, v < chain_state.total_topics → s1.in_degree v = 0) ∧
      s1.Topics = chain_state.Topics ∧ s1.total_topics = chain_state.total_topics) :=
  ⟨chain_state_consistent, by decide, by decide, by decide,
    generate_priority_order_consumes_in_degree chain_state 2 chain_state_consistent
      (by decide)⟩

end StudyPlanner
